import Mathlib

set_option linter.unusedVariables false

/-!
Shallow embedding of the CSV ingestion / bulk-load core of
`src/bulk-replicator.js` (class `SupabaseBulkClient`), together with proofs
about the claims of the specification.

Strings are modelled as `List Char`; `String.data` injects concrete Lean
string literals.  Each definition mirrors one source function or a
contiguous fragment of one; source line numbers are given in doc comments.
Effectful calls to the destination database (Supabase API, PostgreSQL
pool) are modelled by explicit parameters carrying the observable answers
of those calls, and by traces of the DDL statements issued.
-/

namespace BulkReplicator

/-- JavaScript whitespace as relevant to `String.prototype.trim` on the
character set this program handles. -/
def isWS (c : Char) : Bool := c = ' ' || c = '\t' || c = '\n' || c = '\r'

/-- Model of `String.prototype.trim`. -/
def jsTrim (s : List Char) : List Char :=
  ((s.dropWhile isWS).reverse.dropWhile isWS).reverse

/-! ### CSV tokenizer

`parseCSVData` (bulk-replicator.js lines 1700-1761) tokenizes each
physical line with the regular expression
`/(?:^|,)("(?:[^"]+|"")*"|[^,]*)/g`.  The functions below model
JavaScript's leftmost, greedy-with-backtracking global match of that
pattern: the first match starts at position 0 (the `^` branch always
succeeds there), every later match starts at a comma at or after the
previous match's end, and an empty first match advances the scan position
by one.
-/

/-- Body of the quoted-field alternative `"(?:[^"]+|"")*"`: given the
characters after the opening quote, return `(body, rest)` where `body` is
what the starred group consumes and `rest` follows the closing quote.
Greedy with backtracking: a `""` pair is consumed as an escaped quote when
a later closing quote exists, otherwise its first `"` closes the field.
`none` when no closing quote is reachable (the alternative fails). -/
def scanQ : List Char → Option (List Char × List Char)
  | [] => none
  | '"' :: '"' :: rest =>
    match scanQ rest with
    | some (body, r) => some ('"' :: '"' :: body, r)
    | none => some ([], '"' :: rest)
  | '"' :: rest => some ([], rest)
  | c :: rest =>
    match scanQ rest with
    | some (body, r) => some (c :: body, r)
    | none => none

theorem scanQ_length_lt : ∀ (s b r : List Char), scanQ s = some (b, r) → r.length < s.length := by
  intro s
  induction s using scanQ.induct
  all_goals intro b r h
  all_goals simp_all [scanQ]
  all_goals omega

/-- The character class `[^,]` of the unquoted-field alternative. -/
def notComma (c : Char) : Bool := c != ','

/-- The field alternative `("(?:[^"]+|"")*"|[^,]*)` applied at the current
position: returns `(consumed, rest)`.  A quoted run is preferred; if it
fails, the unquoted alternative `[^,]*` consumes up to the next comma. -/
def fieldFrom (s : List Char) : List Char × List Char :=
  match s with
  | '"' :: rest =>
    match scanQ rest with
    | some (body, r) => ('"' :: body ++ ['"'], r)
    | none => (s.takeWhile notComma, s.dropWhile notComma)
  | _ => (s.takeWhile notComma, s.dropWhile notComma)

theorem fieldFrom_snd_length_le (s : List Char) : (fieldFrom s).2.length ≤ s.length := by
  unfold fieldFrom
  split
  · rename_i rest
    split
    · rename_i body r hq
      have := scanQ_length_lt rest body r hq
      simp
      omega
    · exact (List.dropWhile_sublist _).length_le
  · exact (List.dropWhile_sublist _).length_le

/-- Matches after the first one: the regex engine scans the remaining
suffix for a comma (the only place `(?:^|,)` can still fire) and each
match is that comma followed by one field.  Fuel-based so that the
definition is kernel-computable; `cs.length` fuel always suffices. -/
def scanTailAux : Nat → List Char → List (List Char)
  | 0, _ => []
  | fuel + 1, cs =>
    match cs.dropWhile notComma with
    | [] => []
    | _ :: after => (',' :: (fieldFrom after).1) :: scanTailAux fuel (fieldFrom after).2

def scanTail (cs : List Char) : List (List Char) := scanTailAux cs.length cs

theorem scanTailAux_congr : ∀ (f1 f2 : Nat) (cs : List Char),
    cs.length ≤ f1 → cs.length ≤ f2 → scanTailAux f1 cs = scanTailAux f2 cs := by
  intro f1
  induction f1 with
  | zero =>
    intro f2 cs h1 _
    have : cs = [] := List.length_eq_zero.mp (Nat.le_zero.mp h1)
    subst this
    cases f2 <;> simp [scanTailAux]
  | succ f1 ih =>
    intro f2 cs h1 h2
    cases f2 with
    | zero =>
      have : cs = [] := List.length_eq_zero.mp (Nat.le_zero.mp h2)
      subst this
      simp [scanTailAux]
    | succ f2 =>
      simp only [scanTailAux]
      cases hd : cs.dropWhile notComma with
      | nil => rfl
      | cons x after =>
        have hlen : after.length < cs.length := by
          have : (cs.dropWhile notComma).length ≤ cs.length :=
            (List.dropWhile_sublist _).length_le
          rw [hd] at this
          simp at this
          omega
        have hf : (fieldFrom after).2.length ≤ after.length := fieldFrom_snd_length_le after
        dsimp only
        rw [ih f2 (fieldFrom after).2 (by omega) (by omega)]

theorem scanTail_eq_nil (cs : List Char) (h : cs.dropWhile notComma = []) :
    scanTail cs = [] := by
  unfold scanTail
  cases hl : cs.length with
  | zero => simp [scanTailAux]
  | succ n => simp [scanTailAux, h]

theorem scanTail_eq_cons (cs : List Char) (x : Char) (after : List Char)
    (h : cs.dropWhile notComma = x :: after) :
    scanTail cs = (',' :: (fieldFrom after).1) :: scanTail (fieldFrom after).2 := by
  unfold scanTail
  have hlen : after.length < cs.length := by
    have : (cs.dropWhile notComma).length ≤ cs.length :=
      (List.dropWhile_sublist _).length_le
    rw [h] at this
    simp at this
    omega
  have hf : (fieldFrom after).2.length ≤ after.length := fieldFrom_snd_length_le after
  cases hl : cs.length with
  | zero => omega
  | succ n =>
    simp only [scanTailAux, h]
    rw [scanTailAux_congr n (fieldFrom after).2.length (fieldFrom after).2 (by omega) (by omega)]

/-- All matches of the tokenizing regex on one physical line, in order
(the raw match strings, leading comma included where the `,` branch of
`(?:^|,)` fired). -/
def lineTokens (s : List Char) : List (List Char) :=
  let f := fieldFrom s
  if f.1.isEmpty then f.1 :: scanTail (s.drop 1)
  else f.1 :: scanTail f.2

/-- `match.replace(/^,/, '')` (line 1714 / 1729). -/
def stripLeadComma : List Char → List Char
  | ',' :: rest => rest
  | s => s

/-- `match.replace(/^"|"$/g, '')` (line 1714 / 1729): removes one leading
and one trailing double quote, each at most once. -/
def stripWrapQuotes (s : List Char) : List Char :=
  let s1 := match s with
    | '"' :: rest => rest
    | _ => s
  match s1.getLast? with
  | some '"' => s1.dropLast
  | _ => s1

/-- Value extracted from one raw regex match:
`match.replace(/^,/, '').replace(/^"|"$/g, '').trim()`. -/
def tokenValue (t : List Char) : List Char := jsTrim (stripWrapQuotes (stripLeadComma t))

/-- `csvData.split('\n')` (line 1703). -/
def splitOnNL : List Char → List (List Char)
  | [] => [[]]
  | c :: rest =>
    if c = '\n' then [] :: splitOnNL rest
    else
      match splitOnNL rest with
      | l :: ls => (c :: l) :: ls
      | [] => [[c]]

/-- The physical lines the parser keeps: `.filter(line => line.trim())`
(line 1703). -/
def csvLines (csvData : List Char) : List (List Char) :=
  (splitOnNL csvData).filter (fun l => !(jsTrim l).isEmpty)

/-- Per-cell post-processing of `parseCSVData` (lines 1737-1743): the
empty string becomes `null`; other values are trimmed and cleared of
carriage returns. -/
def rowValue (v : List Char) : Option (List Char) :=
  if v.isEmpty then none
  else some ((jsTrim v).filter (fun c => c ≠ '\r'))

/-- One parsed record: the `row` object of lines 1732-1746, as the ordered
(header, value) pairs written into it. -/
def mkRow (headers : List (List Char)) (values : List (List Char)) :
    List (List Char × Option (List Char)) :=
  headers.zip (values.map rowValue)

structure ParseResult where
  headers : List (List Char)
  data : List (List (List Char × Option (List Char)))
  deriving DecidableEq

/-- `parseCSVData` (lines 1700-1761): split into non-blank physical lines,
tokenize the first as headers, then keep exactly the data lines whose
token count equals the header count. -/
def parseCSVData (csvData : List Char) : ParseResult :=
  match csvLines csvData with
  | [] => ⟨[], []⟩
  | headerLine :: dataLines =>
    let headers := (lineTokens headerLine).map tokenValue
    ⟨headers,
      dataLines.filterMap (fun line =>
        let ms := lineTokens line
        if ms.length = headers.length then
          some (mkRow headers (ms.map tokenValue))
        else none)⟩

/-! ### Column name normalizer

`cleanColumnName` (lines 1764-1797) and `cleanHeaders` (lines 1800-1835).
The MD5 hash from the external `crypto` module is abstracted as a
parameter `md5hex8` standing for the first 8 hex characters of the MD5 of
the header text; every statement below holds for an arbitrary such
function, so in particular for the real MD5.
-/

/-- `/[^\x00-\x7F]/.test(columnName)` (line 1771). -/
def hasNonLatin (s : List Char) : Bool := s.any (fun c => c.toNat > 0x7F)

/-- Decimal digit characters of a natural number, most significant first:
what JavaScript template interpolation of a nonnegative integer yields.
Fuel-based so that it is kernel-computable; `n` fuel always suffices. -/
def natCharsAux : Nat → Nat → List Char
  | 0, _ => []
  | fuel + 1, n =>
    if n = 0 then [] else natCharsAux fuel (n / 10) ++ [Nat.digitChar (n % 10)]

def natChars (n : Nat) : List Char :=
  if n = 0 then ['0'] else natCharsAux (n + 1) n

theorem natCharsAux_eq_digits : ∀ (fuel n : Nat), n ≤ fuel →
    natCharsAux fuel n = ((Nat.digits 10 n).map Nat.digitChar).reverse := by
  intro fuel
  induction fuel with
  | zero =>
    intro n hn
    have : n = 0 := Nat.le_zero.mp hn
    subst this
    simp [natCharsAux]
  | succ fuel ih =>
    intro n hn
    by_cases h0 : n = 0
    · subst h0; simp [natCharsAux]
    · have hdiv : n / 10 ≤ fuel := by
        have := Nat.div_lt_self (Nat.pos_of_ne_zero h0) (by norm_num : (1:Nat) < 10)
        omega
      rw [Nat.digits_def' (by norm_num : (1:Nat) < 10) (Nat.pos_of_ne_zero h0)]
      simp only [natCharsAux, if_neg h0, List.map_cons, List.reverse_cons]
      rw [ih (n / 10) hdiv]

theorem natChars_eq_digits (n : Nat) (hn : n ≠ 0) :
    natChars n = ((Nat.digits 10 n).map Nat.digitChar).reverse := by
  unfold natChars
  rw [if_neg hn]
  exact natCharsAux_eq_digits (n + 1) n (by omega)

/-- `.replace(/[^a-z0-9_]/g, '_')` applied characterwise (line 1786). -/
def keepAlnum (c : Char) : Char :=
  if ('a' ≤ c && c ≤ 'z') || ('0' ≤ c && c ≤ '9') || c = '_' then c else '_'

/-- `.replace(/_{2,}/g, '_')` (line 1787): every maximal run of
underscores becomes a single underscore. -/
def squeezeUSAux : Bool → List Char → List Char
  | _, [] => []
  | prevUS, c :: rest =>
    if c = '_' then
      if prevUS then squeezeUSAux true rest else '_' :: squeezeUSAux true rest
    else c :: squeezeUSAux false rest

def squeezeUS (s : List Char) : List Char := squeezeUSAux false s

/-- `.replace(/^_|_$/g, '')` (line 1788): removes one leading and one
trailing underscore, each at most once. -/
def stripEdgeUS (s : List Char) : List Char :=
  let s1 := match s with
    | '_' :: rest => rest
    | _ => s
  match s1.getLast? with
  | some '_' => s1.dropLast
  | _ => s1

/-- `cleanColumnName` (lines 1764-1797).  `Char.toLower` models
`String.prototype.toLowerCase` (the two agree on ASCII, and any remaining
non-`[a-z0-9_]` character is replaced by `_` right after). -/
def cleanColumnName (md5hex8 : List Char → List Char) (columnName : List Char)
    (fallbackIndex : Option Nat) : List Char :=
  if (jsTrim columnName).isEmpty then
    match fallbackIndex with
    | some i => "col_".data ++ natChars i ++ "_empty".data
    | none => "unnamed_column".data
  else
    match fallbackIndex, hasNonLatin columnName with
    | some i, true => "col_".data ++ natChars i ++ ['_'] ++ md5hex8 columnName
    | _, _ =>
      let cleaned :=
        (stripEdgeUS (squeezeUS ((columnName.map Char.toLower).map keepAlnum))).take 63
      if cleaned.isEmpty then
        match fallbackIndex with
        | some i => "col_".data ++ natChars i ++ "_cleaned".data
        | none => "unnamed_column".data
      else cleaned

/-- Candidate names tried by the duplicate-resolution loop of
`cleanHeaders` (lines 1820-1825): `cleanName`, `cleanName_1`, …. -/
def candidate (base : List Char) (k : Nat) : List Char :=
  if k = 0 then base else base ++ '_' :: natChars k

/-- The `while (seenNames.has(finalName))` loop (lines 1820-1825),
fuel-based so that it is kernel-computable; `seen.length + 1` fuel always
finds a fresh candidate (proved below). -/
def freshNameAux (seen : List (List Char)) (base : List Char) : Nat → Nat → List Char
  | 0, k => candidate base k
  | fuel + 1, k =>
    if candidate base k ∈ seen then freshNameAux seen base fuel (k + 1)
    else candidate base k

def freshName (seen : List (List Char)) (base : List Char) : List Char :=
  freshNameAux seen base (seen.length + 1) 0

structure CleanHeadersResult where
  cleanedHeaders : List (List Char)
  headerMapping : List (List Char × List Char)
  deriving DecidableEq

/-- The `headers.forEach` body of `cleanHeaders` (lines 1807-1830): `seen`
collects the names already chosen (the `seenNames` set, which always holds
exactly the pushed names). -/
def cleanHeadersAux (md5hex8 : List Char → List Char) :
    List (List Char) → Nat → List (List Char) → CleanHeadersResult
  | [], _, _ => ⟨[], []⟩
  | h :: hs, idx, seen =>
    let cleanName := cleanColumnName md5hex8 h (some idx)
    let finalName := freshName seen cleanName
    let rest := cleanHeadersAux md5hex8 hs (idx + 1) (seen ++ [finalName])
    ⟨finalName :: rest.cleanedHeaders, (h, finalName) :: rest.headerMapping⟩

/-- `cleanHeaders` (lines 1800-1835). -/
def cleanHeaders (md5hex8 : List Char → List Char) (headers : List (List Char)) :
    CleanHeadersResult :=
  cleanHeadersAux md5hex8 headers 0 []

theorem natChars_ne_nil (n : Nat) : natChars n ≠ [] := by
  by_cases hn : n = 0
  · subst hn; simp [natChars]
  · rw [natChars_eq_digits n hn]
    have : Nat.digits 10 n ≠ [] := Nat.digits_ne_nil_iff_ne_zero.mpr hn
    simp [this]

theorem digitChar_inj_lt10 : ∀ d1 < 10, ∀ d2 < 10, Nat.digitChar d1 = Nat.digitChar d2 → d1 = d2 := by
  decide

theorem map_digitChar_inj : ∀ (l1 l2 : List Nat), (∀ d ∈ l1, d < 10) → (∀ d ∈ l2, d < 10) →
    l1.map Nat.digitChar = l2.map Nat.digitChar → l1 = l2 := by
  intro l1
  induction l1 with
  | nil => intro l2 _ _ h; cases l2 <;> simp_all
  | cons d l1 ih =>
    intro l2 h1 h2 h
    cases l2 with
    | nil => simp_all
    | cons e l2 =>
      simp only [List.map_cons, List.cons.injEq] at h
      have hd : d = e := digitChar_inj_lt10 d (h1 d (by simp)) e (h2 e (by simp)) h.1
      have : l1 = l2 := ih l2 (fun x hx => h1 x (by simp [hx])) (fun x hx => h2 x (by simp [hx])) h.2
      simp [hd, this]

theorem natChars_inj (m n : Nat) (h : natChars m = natChars n) : m = n := by
  have h00 : natChars 0 = ['0'] := rfl
  by_cases hm : m = 0 <;> by_cases hn : n = 0
  · omega
  · exfalso
    rw [hm, h00, natChars_eq_digits n hn] at h
    have h1 : (Nat.digits 10 n).map Nat.digitChar = ['0'] := by
      have := congrArg List.reverse h
      simpa using this.symm
    have h2 : Nat.digits 10 n = [0] :=
      map_digitChar_inj _ [0] (fun d hd => Nat.digits_lt_base (by norm_num) hd) (by simp) h1
    have hlast := Nat.getLast_digit_ne_zero 10 hn
    simp [h2] at hlast
  · exfalso
    rw [hn, h00, natChars_eq_digits m hm] at h
    have h1 : (Nat.digits 10 m).map Nat.digitChar = ['0'] := by
      have := congrArg List.reverse h
      simpa using this
    have h2 : Nat.digits 10 m = [0] :=
      map_digitChar_inj _ [0] (fun d hd => Nat.digits_lt_base (by norm_num) hd) (by simp) h1
    have hlast := Nat.getLast_digit_ne_zero 10 hm
    simp [h2] at hlast
  · rw [natChars_eq_digits m hm, natChars_eq_digits n hn] at h
    have h1 := congrArg List.reverse h
    simp only [List.reverse_reverse] at h1
    have h2 := map_digitChar_inj _ _ (fun d hd => Nat.digits_lt_base (by norm_num) hd)
      (fun d hd => Nat.digits_lt_base (by norm_num) hd) h1
    exact Nat.digits.injective 10 h2

theorem candidate_inj (base : List Char) : Function.Injective (candidate base) := by
  intro i j h
  unfold candidate at h
  by_cases hi : i = 0 <;> by_cases hj : j = 0
  · omega
  · exfalso
    simp only [if_pos, hi, if_neg hj] at h
    have := congrArg List.length h
    simp at this
  · exfalso
    simp only [if_pos, hj, if_neg hi] at h
    have := congrArg List.length h
    simp at this
  · simp only [if_neg hi, if_neg hj] at h
    have := List.append_cancel_left h
    simp only [List.cons.injEq] at this
    exact natChars_inj i j this.2

theorem freshNameAux_not_mem (seen : List (List Char)) (base : List Char) :
    ∀ (fuel k : Nat), (∃ j, k ≤ j ∧ j < k + fuel ∧ candidate base j ∉ seen) →
    freshNameAux seen base fuel k ∉ seen := by
  intro fuel
  induction fuel with
  | zero =>
    intro k ⟨j, h1, h2, _⟩
    omega
  | succ fuel ih =>
    intro k ⟨j, h1, h2, h3⟩
    unfold freshNameAux
    split
    · rename_i hmem
      apply ih
      refine ⟨j, ?_, by omega, h3⟩
      rcases Nat.eq_or_lt_of_le h1 with heq | hlt
      · exfalso; rw [← heq] at h3; exact h3 hmem
      · omega
    · assumption

theorem freshName_not_mem (seen : List (List Char)) (base : List Char) :
    freshName seen base ∉ seen := by
  apply freshNameAux_not_mem
  -- pigeonhole: among the seen.length + 1 distinct candidates 0..seen.length,
  -- not all can be in seen
  by_contra hall
  push_neg at hall
  have hsub : (List.range (seen.length + 1)).map (candidate base) ⊆ seen := by
    intro x hx
    simp only [List.mem_map, List.mem_range] at hx
    obtain ⟨j, hj, rfl⟩ := hx
    exact hall j (by omega) (by omega)
  have hnd : ((List.range (seen.length + 1)).map (candidate base)).Nodup :=
    (List.nodup_range _).map (candidate_inj base)
  have := (List.subperm_of_subset hnd hsub).length_le
  simp at this

theorem cleanHeadersAux_nodup (md5hex8 : List Char → List Char) :
    ∀ (hs : List (List Char)) (idx : Nat) (seen : List (List Char)),
    (cleanHeadersAux md5hex8 hs idx seen).cleanedHeaders.Nodup ∧
    ∀ x ∈ (cleanHeadersAux md5hex8 hs idx seen).cleanedHeaders, x ∉ seen := by
  intro hs
  induction hs with
  | nil => intro idx seen; simp [cleanHeadersAux]
  | cons h hs ih =>
    intro idx seen
    obtain ⟨ihnd, ihmem⟩ := ih (idx + 1) (seen ++ [freshName seen (cleanColumnName md5hex8 h (some idx))])
    constructor
    · simp only [cleanHeadersAux, List.nodup_cons]
      refine ⟨fun hmem => ?_, ihnd⟩
      have := ihmem _ hmem
      simp at this
    · intro x hx
      simp only [cleanHeadersAux, List.mem_cons] at hx
      rcases hx with rfl | hx
      · exact freshName_not_mem _ _
      · intro hxseen
        exact ihmem x hx (by simp [hxseen])

/-! ### Value cleaner: numeric values

`cleanNumericValue` (lines 1908-2001).  JavaScript numbers are modelled
exactly: every number reachable in these branches is a short decimal
literal, represented as `Dec` (an integer mantissa scaled by a power of
ten; `Dec.toRat` is its value).  Double-precision rounding is monotone and
irrelevant to the claims, which compare values that differ by orders of
magnitude.  Since the source regexes use character classes that are
pairwise disjoint at each boundary, their greedy matches are modelled by
deterministic scans. -/

/-- An exact decimal number `mant / 10 ^ exp`. -/
structure Dec where
  mant : Int
  exp : Nat
  deriving DecidableEq

/-- The rational value of a `Dec`. -/
def Dec.toRat (d : Dec) : ℚ := (d.mant : ℚ) / 10 ^ d.exp

/-- Result of the cleaner on a string input: a number, the original (or
some) string, or `null`. -/
inductive CleanedValue
  | num (d : Dec)
  | str (s : List Char)
  | null
  deriving DecidableEq

/-- The character class `[SAR\s]`. -/
def isSARWS (c : Char) : Bool := c = 'S' || c = 'A' || c = 'R' || isWS c

/-- The character class `[\d,]`. -/
def isDigitComma (c : Char) : Bool := c.isDigit || c = ','

/-- Leading-minus test of a sign-prefix pattern position. -/
def signOf : List Char → Bool
  | '-' :: _ => true
  | _ => false

/-- Leading-plus test. -/
def plusOf : List Char → Bool
  | '+' :: _ => true
  | _ => false

/-- Consume an optional leading `-`. -/
def stripMinus : List Char → List Char
  | '-' :: r => r
  | s => s

/-- Consume an optional sign (`-` or `+`). -/
def stripSign : List Char → List Char
  | '-' :: r => r
  | '+' :: r => r
  | s => s

/-- Consume an optional leading `.` (`\.?` in the patterns). -/
def stripDot : List Char → List Char
  | '.' :: r => r
  | s => s

/-- The fraction digits after a decimal point, if the remainder starts
with one. -/
def fpOf : List Char → List Char
  | '.' :: r => r.takeWhile Char.isDigit
  | _ => []

/-- Whole-string test of the regex of Pattern 1, line 1919
(`^[SAR\s]*[\d,]+\.?\d*[K%]*$`). -/
def matchP1 (s : List Char) : Bool :=
  let s1 := s.dropWhile isSARWS
  let s2 := s1.dropWhile isDigitComma
  if s2.length = s1.length then false
  else
    let s3 := stripDot s2
    let s4 := s3.dropWhile Char.isDigit
    (s4.dropWhile (fun c => c = 'K' || c = '%')).isEmpty

/-- Whole-string test of the regex of Pattern 1b, line 1927
(`^SAR\s+[\d,]+\.?\d*$`). -/
def matchP1b (s : List Char) : Bool :=
  match s with
  | 'S' :: 'A' :: 'R' :: rest =>
    let ws := rest.takeWhile isWS
    if ws.isEmpty then false
    else
      let s1 := rest.dropWhile isWS
      let s2 := s1.dropWhile isDigitComma
      if s2.length = s1.length then false
      else (stripDot s2 |>.dropWhile Char.isDigit).isEmpty
  | _ => false

/-- Whole-string test of the regex of Pattern 2, line 1936
(`^-?[\d]+\.?\d*$`). -/
def matchP2 (s : List Char) : Bool :=
  let s0 := stripMinus s
  let s1 := s0.dropWhile Char.isDigit
  if s1.length = s0.length then false
  else (stripDot s1 |>.dropWhile Char.isDigit).isEmpty

/-- Whole-string test of the regex of Pattern 3, line 1945
(`^-?[\d,.\s]+$`). -/
def matchP3 (s : List Char) : Bool :=
  let s0 := stripMinus s
  !s0.isEmpty && s0.all (fun c => c.isDigit || c = ',' || c = '.' || isWS c)

/-- Natural number denoted by a list of decimal digit characters. -/
def digitsToNat (l : List Char) : Nat :=
  l.foldl (fun acc c => acc * 10 + (c.toNat - '0'.toNat)) 0

/-- Exact value of the decimal literal `ip.fp`. -/
def decOf (ip fp : List Char) : Dec :=
  ⟨(digitsToNat (ip ++ fp) : Int), fp.length⟩

/-- `Number(s)` on an unsigned decimal string: digits, optional point,
digits; at least one digit.  `none` models `NaN`.  (Hex, exponent and
infinity forms are unreachable from the strings this program feeds in.) -/
def jsNumberUnsigned (s : List Char) : Option Dec :=
  let ip := s.takeWhile Char.isDigit
  let rest := s.dropWhile Char.isDigit
  match rest with
  | [] => if ip.isEmpty then none else some (decOf ip [])
  | '.' :: fp =>
    if fp.all Char.isDigit then
      if ip.isEmpty && fp.isEmpty then none else some (decOf ip fp)
    else none
  | _ => none

/-- `Number(s)` / the string coercion inside `isNaN(s)`. -/
def jsNumber (s : List Char) : Option Dec :=
  let t := jsTrim s
  if t.isEmpty then some ⟨0, 0⟩
  else if signOf t then (jsNumberUnsigned (t.drop 1)).map (fun d => ⟨-d.mant, d.exp⟩)
  else if plusOf t then jsNumberUnsigned (t.drop 1)
  else jsNumberUnsigned t

/-- `parseFloat(s)`: longest numeric prefix after optional sign; `none`
models `NaN`.  (Exponent forms are unreachable here.) -/
def jsParseFloat (s : List Char) : Option Dec :=
  let t := s.dropWhile isWS
  let neg : Bool := signOf t
  let t1 := stripSign t
  let ip := t1.takeWhile Char.isDigit
  let rest := t1.dropWhile Char.isDigit
  let fp := fpOf rest
  if ip.isEmpty && fp.isEmpty then none
  else
    let d := decOf ip fp
    some (if neg then ⟨-d.mant, d.exp⟩ else d)

/-- `value.replace(/[SAR\s,K%]/g, '')` (line 1920). -/
def p1Clean (s : List Char) : List Char :=
  s.filter (fun c => !(isSARWS c || c = ',' || c = 'K' || c = '%'))

/-- `value.replace(/SAR\s+/, '').replace(/,/g, '')` (line 1928), on a
string already known to match Pattern 1b (so the first `SAR\s+` match is
the prefix). -/
def p1bClean (s : List Char) : List Char :=
  ((s.drop 3).dropWhile isWS).filter (fun c => c ≠ ',')

/-- `str.lastIndexOf(c)`: position of the last occurrence, or none. -/
def lastIndexOf (s : List Char) (c : Char) : Option Nat :=
  (s.reverse.findIdx? (fun x => x = c)).map (fun i => s.length - 1 - i)

/-- `str.replace(',', '.')`: only the first occurrence is replaced. -/
def replaceFirstComma : List Char → List Char
  | [] => []
  | c :: rest => if c = ',' then '.' :: rest else c :: replaceFirstComma rest

/-- The separator-disambiguation body of Pattern 3 (lines 1947-1978). -/
def p3Clean (t : List Char) : List Char :=
  let cleaned :=
    if t.contains ',' && t.contains '.' then
      match lastIndexOf t '.', lastIndexOf t ',' with
      | some pi, some ci =>
        if ci < pi then t.filter (fun c => c ≠ ',')
        else replaceFirstComma (t.filter (fun c => c ≠ '.'))
      | _, _ => t
    else if t.contains ',' && !t.contains '.' then
      let afterComma := (t.dropWhile (fun c => c ≠ ',')).drop 1
      if afterComma.length ≤ 2 && !afterComma.isEmpty && afterComma.all Char.isDigit then
        replaceFirstComma t
      else t.filter (fun c => c ≠ ',')
    else t
  cleaned.filter (fun c => !isWS c)

/-- The column-name test of line 1987
(`^(.*_id|.*_amount|.*_bcy|total|sub_total|quantity|balance|age_in_days|price|cost|rate|discount)$`). -/
def isNumericField (col : List Char) : Bool :=
  ("_id".data).isSuffixOf col || ("_amount".data).isSuffixOf col ||
  ("_bcy".data).isSuffixOf col ||
  col = "total".data || col = "sub_total".data || col = "quantity".data ||
  col = "balance".data || col = "age_in_days".data || col = "price".data ||
  col = "cost".data || col = "rate".data || col = "discount".data

/-- `cleanNumericValue` (lines 1909-2001) on a string input.  The
non-string early return (line 1910) and the surrounding `try`/`catch`
carry no behaviour for string inputs in this model. -/
def cleanNumericValue (value columnName : List Char) : CleanedValue :=
  if (jsTrim value).isEmpty then .str value
  else
    let t := jsTrim value
    let pat1 : Option Dec :=
      if matchP1 t then
        let cleaned := p1Clean t
        match jsNumber cleaned with
        | some _ => if cleaned.isEmpty then none else jsParseFloat cleaned
        | none => none
      else none
    match pat1 with
    | some d => .num d
    | none =>
      let chain : Option Dec :=
        if matchP1b t then
          let cleaned := p1bClean t
          match jsNumber cleaned with
          | some _ => if cleaned.isEmpty then none else jsParseFloat cleaned
          | none => none
        else if matchP2 t then jsParseFloat t
        else if matchP3 t then jsParseFloat (p3Clean t)
        else none
      match chain with
      | some d => .num d
      | none =>
        if isNumericField columnName && t ≠ ['-'] then .null
        else .str value

/-! ### Batched bulk loader

`insertDataInBatches` (lines 2224-2365).  The Supabase per-batch insert
call is modelled by `outcome`, giving for each 0-based batch ordinal the
error message of the destination's answer (`none` = the batch was
accepted).  The per-row cleaning of lines 2251-2288 maps each row and
never changes a batch's record count, so the aggregation modelled here is
exactly that of lines 2244-2357. -/

structure BatchError where
  batch : Nat
  error : List Char
  fatal : Bool
  deriving DecidableEq

structure LoadResult where
  success : Bool
  totalRecords : Nat
  inserted : Nat
  failed : Nat
  successRate : Nat
  errors : List BatchError
  partialSuccess : Bool
  deriving DecidableEq

/-- An insert error is treated as fatal exactly when its message contains
`does not exist` (lines 2311-2323). -/
def strIncludes (pat : List Char) : List Char → Bool
  | [] => pat.isEmpty
  | c :: rest => pat.isPrefixOf (c :: rest) || strIncludes pat rest

def isFatalMsg (msg : List Char) : Bool := strIncludes ("does not exist".data) msg

/-- Number of batches of `data.slice(i, i + bs)` for `i = 0, bs, 2*bs, …`. -/
def numBatches (n bs : Nat) : Nat := (n + bs - 1) / bs

/-- `data.slice(j*bs, j*bs + bs).length`. -/
def sliceLen (n bs j : Nat) : Nat := min bs (n - j * bs)

/-- The batch loop of lines 2247-2342 over the given batch ordinals:
returns `(totalInserted, errors)`.  A fatal error records its entry and
breaks; a non-fatal error records its entry (the error numbering
`Math.floor(i / batchSize) + 1` is `j + 1`) and continues. -/
def processBatches (outcome : Nat → Option (List Char)) (n bs : Nat) :
    List Nat → Nat × List BatchError
  | [] => (0, [])
  | j :: js =>
    match outcome j with
    | none =>
      let rest := processBatches outcome n bs js
      (sliceLen n bs j + rest.1, rest.2)
    | some msg =>
      if isFatalMsg msg then
        (0, [⟨j + 1, msg, true⟩])
      else
        let rest := processBatches outcome n bs js
        (rest.1, ⟨j + 1, msg, false⟩ :: rest.2)

/-- `Math.round((inserted / total) * 100)`, computed exactly on naturals:
for `0 < n` this equals `⌊100 * i / n + 1/2⌋` (proved in
`successRatePct_eq_round`). -/
def successRatePct (i n : Nat) : Nat := (200 * i + n) / (2 * n)

/-- `insertDataInBatches` (lines 2224-2365): result aggregation of lines
2344-2357 over the batch loop.  `n` is `data.length`, `bs` the batch size. -/
def insertDataInBatches (outcome : Nat → Option (List Char)) (n bs : Nat) : LoadResult :=
  let run := processBatches outcome n bs (List.range (numBatches n bs))
  let totalInserted := run.1
  let errors := run.2
  { success := (errors.filter (fun e => e.fatal)).isEmpty && decide (0 < totalInserted)
    totalRecords := n
    inserted := totalInserted
    failed := n - totalInserted
    successRate := successRatePct totalInserted n
    errors := errors
    partialSuccess := decide (0 < totalInserted) && decide (0 < errors.length) }

/-- Whether batch `k`'s outcome is a fatal rejection. -/
def fatalAt (outcome : Nat → Option (List Char)) (k : Nat) : Bool :=
  match outcome k with
  | some msg => isFatalMsg msg
  | none => false

/-- Sum of the record counts of the batches whose insert succeeded in the
run: those accepted batches that are actually attempted (no fatal batch
precedes them). -/
def succeededSum (outcome : Nat → Option (List Char)) (n bs : Nat) : Nat :=
  (((List.range (numBatches n bs)).filter
      (fun j => (outcome j).isNone && decide (∀ k < j, fatalAt outcome k = false))).map
    (sliceLen n bs)).sum

theorem processBatches_inserted (outcome : Nat → Option (List Char)) (n bs : Nat) :
    ∀ (m a : Nat),
    (processBatches outcome n bs (List.range' a m)).1 =
      (((List.range' a m).filter
          (fun j => (outcome j).isNone && decide (∀ k, a ≤ k → k < j → fatalAt outcome k = false))).map
        (sliceLen n bs)).sum := by
  intro m
  induction m with
  | zero => intro a; simp [processBatches]
  | succ m ih =>
    intro a
    rw [List.range'_succ]
    simp only [processBatches]
    cases ho : outcome a with
    | none =>
      dsimp only
      have ha : ((outcome a).isNone && decide (∀ k, a ≤ k → k < a → fatalAt outcome k = false)) = true := by
        simp only [ho, Option.isNone_none, Bool.true_and, decide_eq_true_eq]
        intro k h1 h2
        omega
      simp only [List.filter_cons, ha, if_pos, List.map_cons, List.sum_cons]
      rw [ih (a + 1)]
      apply congrArg
      apply congrArg
      apply congrArg
      apply List.filter_congr
      intro j hj
      have haj : a < j := by
        have := List.mem_range'.mp hj
        omega
      congr 1
      rw [decide_eq_decide]
      constructor
      · intro h2 k hk1 hk2
        rcases Nat.eq_or_lt_of_le hk1 with heq | hlt
        · subst heq
          simp [fatalAt, ho]
        · exact h2 k (by omega) hk2
      · intro h2 k hk1 hk2
        exact h2 k (by omega) hk2
    | some msg =>
      dsimp only
      have ha : ((outcome a).isNone && decide (∀ k, a ≤ k → k < a → fatalAt outcome k = false)) = false := by
        simp [ho]
      by_cases hf : isFatalMsg msg = true
      · rw [if_pos hf]
        have hnil : (a :: List.range' (a + 1) m).filter
            (fun j => (outcome j).isNone && decide (∀ k, a ≤ k → k < j → fatalAt outcome k = false)) = [] := by
          rw [List.filter_eq_nil_iff]
          intro j hj
          rcases List.mem_cons.mp hj with rfl | hj2
          · simp [ha]
          · have haj : a < j := by
              have := List.mem_range'.mp hj2
              omega
            simp only [Bool.and_eq_true, decide_eq_true_eq, not_and]
            intro _ hall
            have := hall a (by omega) haj
            simp only [fatalAt, ho] at this
            rw [this] at hf
            simp at hf
        rw [hnil]
        simp
      · rw [if_neg hf]
        dsimp only
        simp only [List.filter_cons, ha, if_neg, Bool.false_eq_true, if_false]
        rw [ih (a + 1)]
        apply congrArg
        apply congrArg
        apply List.filter_congr
        intro j hj
        have haj : a < j := by
          have := List.mem_range'.mp hj
          omega
        congr 1
        rw [decide_eq_decide]
        constructor
        · intro h2 k hk1 hk2
          rcases Nat.eq_or_lt_of_le hk1 with heq | hlt
          · subst heq
            simp only [fatalAt, ho]
            simpa using hf
          · exact h2 k (by omega) hk2
        · intro h2 k hk1 hk2
          exact h2 k (by omega) hk2

theorem insertDataInBatches_inserted (outcome : Nat → Option (List Char)) (n bs : Nat) :
    (insertDataInBatches outcome n bs).inserted = succeededSum outcome n bs := by
  unfold insertDataInBatches succeededSum
  dsimp only
  have := processBatches_inserted outcome n bs (numBatches n bs) 0
  rw [← List.range_eq_range'] at this
  rw [this]
  apply congrArg
  apply congrArg
  apply List.filter_congr
  intro j _
  congr 1
  rw [decide_eq_decide]
  constructor
  · intro h k hk
    exact h k (by omega) hk
  · intro h k _ hk
    exact h k hk

/-- JavaScript `Math.round` on nonnegative arguments. -/
def jsRound (q : ℚ) : ℤ := ⌊q + 1/2⌋

theorem successRatePct_eq_round (i n : Nat) (hn : 0 < n) :
    (successRatePct i n : ℤ) = jsRound ((i : ℚ) / n * 100) := by
  unfold successRatePct jsRound
  have hn' : (n : ℚ) ≠ 0 := Nat.cast_ne_zero.mpr (by omega)
  have h1 : (i : ℚ) / n * 100 + 1 / 2 = ((200 * i + n : ℕ) : ℚ) / ((2 * n : ℕ) : ℚ) := by
    push_cast
    field_simp
    ring
  rw [h1, Rat.floor_natCast_div_natCast]
  norm_cast

/-! ### Streaming (COPY) bulk loader

`importCSVWithCOPY` (lines 2617-2836).  The PostgreSQL pool is modelled
by explicit parameters: the answers of the `information_schema` queries
(whether the table exists and its user columns) and of the post-transfer
`SELECT COUNT(*)` (`postCount`).  The DDL statements issued on the
destination are recorded as a trace. -/

inductive DDLOp
  | dropTable
  | createTable (cols : List (List Char))
  | alterAddColumn (col : List Char)
  | truncate
  deriving DecidableEq

/-- Schema management of `importCSVWithCOPY` (lines 2665-2742): the DDL
statements issued, in order.  `existingColumns` is the destination's
answer to the `information_schema.columns` query (user columns only,
lines 2681-2690). -/
def copySchemaOps (preserveViews tableExists : Bool)
    (existingColumns cleanedHeaders : List (List Char)) : List DDLOp :=
  if preserveViews then
    if tableExists then
      ((cleanedHeaders.filter (fun col => !existingColumns.contains col)).map
        DDLOp.alterAddColumn) ++ [DDLOp.truncate]
    else [DDLOp.createTable cleanedHeaders]
  else [DDLOp.dropTable, DDLOp.createTable cleanedHeaders]

/-- Destination table state: user columns as (name, type) in order, and a
row count.  `none` = the table does not exist. -/
structure TableState where
  cols : List (List Char × List Char)
  rows : Nat
  deriving DecidableEq

/-- Effect of one DDL statement on the table (`ALTER TABLE … ADD COLUMN …
TEXT` on line 2698, `TRUNCATE TABLE` on line 2704, `DROP TABLE … CASCADE`
on line 2725, `CREATE TABLE` with all-`TEXT` columns on lines 2710/2729). -/
def applyDDL : Option TableState → DDLOp → Option TableState
  | _, .dropTable => none
  | _, .createTable cs => some ⟨cs.map (fun c => (c, "TEXT".data)), 0⟩
  | some t, .alterAddColumn c => some ⟨t.cols ++ [(c, "TEXT".data)], t.rows⟩
  | none, .alterAddColumn _ => none
  | some t, .truncate => some ⟨t.cols, 0⟩
  | none, .truncate => none

def applyDDLs (t : Option TableState) (ops : List DDLOp) : Option TableState :=
  ops.foldl applyDDL t

/-- JavaScript object lookup on an assoc list built by repeated
assignment: the last write to a key wins. -/
def jsGet {α : Type} (m : List (List Char × α)) (k : List Char) : Option α :=
  (m.reverse.find? (fun p => p.1 = k)).map Prod.snd

/-- `Object.keys` of such an assoc list: first-insertion order, each key
once. -/
def jsKeys {α : Type} : List (List Char × α) → List (List Char)
  | [] => []
  | (k, _) :: rest => k :: (jsKeys rest).filter (fun k2 => k2 ≠ k)

/-- `array.join(sep)`. -/
def joinSep (sep : Char) : List (List Char) → List Char
  | [] => []
  | [l] => l
  | l :: ls => l ++ sep :: joinSep sep ls

/-- CSV escaping of one value for the COPY payload (lines 2762-2770):
`String(value).trim()`, then quote-wrap with `""`-doubling when the value
contains a comma, quote, newline or carriage return. -/
def csvEscape (v : List Char) : List Char :=
  let sv := jsTrim v
  if sv.contains ',' || sv.contains '"' || sv.contains '\n' || sv.contains '\r' then
    '"' :: (sv.flatMap (fun c => if c = '"' then ['"', '"'] else [c])) ++ ['"']
  else sv

/-- One field of a COPY data line (lines 2752-2770): `null`, `undefined`
and the empty string serialize to the empty field. -/
def csvEscapeValue : Option (Option (List Char)) → List Char
  | none => []
  | some none => []
  | some (some v) => if v.isEmpty then [] else csvEscape v

/-- One field of a COPY data line for a clean header (lines 2752-2770):
find the original header mapped to it, read the row's value there. -/
def copyFieldValue (headerMapping : List (List Char × List Char))
    (row : List (List Char × Option (List Char))) (cleanHeader : List Char) : List Char :=
  match (jsKeys headerMapping).find? (fun orig => jsGet headerMapping orig = some cleanHeader) with
  | none => []
  | some orig => csvEscapeValue (jsGet row orig)

/-- The full CSV text handed to `COPY … FROM STDIN` (lines 2744-2775).
The `rawMode` option is destructured on line 2619 and never used: the
payload is independent of it. -/
def copyPayload (md5hex8 : List Char → List Char) (rawMode : Bool) (csvData : List Char) :
    List Char :=
  let p := parseCSVData csvData
  let ch := cleanHeaders md5hex8 p.headers
  let headerLine := joinSep ',' ch.cleanedHeaders
  let dataLines := p.data.map (fun row =>
    joinSep ',' (ch.cleanedHeaders.map (copyFieldValue ch.headerMapping row)))
  joinSep '\n' (headerLine :: dataLines)

/-- The data lines of the COPY payload, one per parsed record. -/
def copyDataLines (md5hex8 : List Char → List Char) (rawMode : Bool) (csvData : List Char) :
    List (List Char) :=
  let p := parseCSVData csvData
  let ch := cleanHeaders md5hex8 p.headers
  p.data.map (fun row =>
    joinSep ',' (ch.cleanedHeaders.map (copyFieldValue ch.headerMapping row)))

/-- Result of `importCSVWithCOPY` as the caller observes it; `inserted`
and `failed` are absent (`none`) on the empty-input early return of lines
2646-2654. -/
structure CopyResult where
  success : Bool
  records : Nat
  inserted : Option Nat
  failed : Option Int
  deriving DecidableEq

/-- Result construction of `importCSVWithCOPY` (lines 2646-2654 and
2804-2826): `postCount` is the destination's answer to the post-transfer
`SELECT COUNT(*)` of line 2807. -/
def importCSVWithCOPY (csvData : List Char) (postCount : Nat) : CopyResult :=
  let p := parseCSVData csvData
  if p.data.length = 0 then
    { success := true, records := 0, inserted := none, failed := none }
  else
    { success := decide (postCount = p.data.length)
      records := p.data.length
      inserted := some postCount
      failed := some ((p.data.length : Int) - postCount) }

/-! ### Replication orchestrator

`replicateTables` (lines 2519-2615) and `replicateTableEnhanced` (lines
2839-2852).  The observable behaviour of one call to
`replicateTableEnhanced` — which always delegates to `importCSVWithCOPY`
(line 2846) and rethrows any of its errors (lines 2848-2851) — is
abstracted as `load tableName csvText attempt`, an `Except`: `.error` is
a thrown exception, `.ok` a returned result object. -/

structure TableOutcome where
  success : Bool
  partialSuccess : Bool
  inserted : Nat
  tableName : List Char
  deriving DecidableEq

structure RunResults where
  success : List TableOutcome
  failed : List TableOutcome
  totalRecords : Nat
  deriving DecidableEq

/-- The per-table retry loop of `replicateTables` (lines 2553-2570): run
attempts until one succeeds (fully or partially) or the budget is spent;
an exception propagates.  Returns the loop's final `lastResult` (`none`
when `retryCount = 0`: the loop body never ran and `lastResult` is still
`null`). -/
def attemptLoop (load : Nat → Except (List Char) TableOutcome) :
    Nat → Nat → Except (List Char) (Option TableOutcome)
  | 0, _ => .ok none
  | rem + 1, attempt =>
    match load attempt with
    | .error e => .error e
    | .ok r =>
      if r.success || r.partialSuccess then .ok (some r)
      else
        match rem with
        | 0 => .ok (some r)
        | rem' + 1 => attemptLoop load (rem' + 1) (attempt + 1)

/-- `replicateTables` (lines 2519-2615): loop over the (table, CSV) pairs,
retry loop per table, then categorization (lines 2572-2578).  The loop
body contains no `try`/`catch`, so an exception thrown by a table's load
propagates out of the whole run; reading `lastResult.success` on line 2561
with `lastResult` still `null` (a `retryCount = 0` call) throws a
`TypeError`. -/
def replicateTables (load : List Char → List Char → Nat → Except (List Char) TableOutcome) :
    List (List Char × List Char) → Nat → Except (List Char) RunResults
  | [], _ => .ok ⟨[], [], 0⟩
  | (name, csv) :: ts, retryCount =>
    match attemptLoop (load name csv) retryCount 1 with
    | .error e => .error e
    | .ok none => .error ("TypeError: Cannot read properties of null (reading 'success')".data)
    | .ok (some r) =>
      match replicateTables load ts retryCount with
      | .error e => .error e
      | .ok rest =>
        if r.success || r.partialSuccess then
          .ok ⟨r :: rest.success, rest.failed, r.inserted + rest.totalRecords⟩
        else
          .ok ⟨rest.success, r :: rest.failed, rest.totalRecords⟩

/-! ### Shared helper lemmas -/

theorem dropWhile_eq_self_of_all {α : Type} (p : α → Bool) :
    ∀ (l : List α), (∀ c ∈ l, p c = false) → l.dropWhile p = l := by
  intro l h
  cases l with
  | nil => rfl
  | cons c rest =>
    rw [List.dropWhile_cons_of_neg]
    simp [h c (by simp)]

theorem dropWhile_eq_nil_of_all {α : Type} (p : α → Bool) :
    ∀ (l : List α), (∀ c ∈ l, p c = true) → l.dropWhile p = [] := by
  intro l
  induction l with
  | nil => intro _; rfl
  | cons c rest ih =>
    intro h
    rw [List.dropWhile_cons_of_pos (h c (by simp))]
    exact ih (fun x hx => h x (by simp [hx]))

theorem takeWhile_append_of_all {α : Type} (p : α → Bool) (x : α) :
    ∀ (a rest : List α), (∀ c ∈ a, p c = true) → p x = false →
    (a ++ x :: rest).takeWhile p = a := by
  intro a
  induction a with
  | nil =>
    intro rest _ hx
    simp [List.takeWhile_cons, hx]
  | cons c cs ih =>
    intro rest h hx
    have hc := h c (by simp)
    simp [List.takeWhile_cons, hc, ih rest (fun y hy => h y (by simp [hy])) hx]

theorem dropWhile_append_of_all {α : Type} (p : α → Bool) (x : α) :
    ∀ (a rest : List α), (∀ c ∈ a, p c = true) → p x = false →
    (a ++ x :: rest).dropWhile p = x :: rest := by
  intro a
  induction a with
  | nil =>
    intro rest _ hx
    simp [List.dropWhile_cons, hx]
  | cons c cs ih =>
    intro rest h hx
    have hc := h c (by simp)
    simp [List.dropWhile_cons, hc, ih rest (fun y hy => h y (by simp [hy])) hx]

theorem jsTrim_eq_self_of_all (s : List Char) (h : ∀ c ∈ s, isWS c = false) :
    jsTrim s = s := by
  unfold jsTrim
  rw [dropWhile_eq_self_of_all isWS s h]
  rw [dropWhile_eq_self_of_all isWS s.reverse (fun c hc => h c (List.mem_reverse.mp hc))]
  exact List.reverse_reverse s

/-! ## Claim C8 — streaming-load success is the row-count comparison -/

/-- C8, counterexample: a streaming load whose CSV parses to zero records
(header-only input) returns `success = true` on the early return of lines
2646-2654 without ever comparing against the destination's row count, so
with 3 rows already in the destination the claimed equivalence
`success = true ↔ post-transfer count = parsed records` fails. -/
theorem c8_counterexample :
    ¬((importCSVWithCOPY "h".data 3).success = true ↔
      3 = (importCSVWithCOPY "h".data 3).records) := by
  decide

/-- C8, amended: for a streaming load with at least one parsed record, the
returned result has `success = true` iff the destination's post-transfer
row count equals the number of parsed source records (line 2814); a load
with zero parsed records returns `success = true` without touching the
table. -/
theorem c8_amended (csvData : List Char) (postCount : Nat)
    (h : (parseCSVData csvData).data ≠ []) :
    ((importCSVWithCOPY csvData postCount).success = true ↔
      postCount = (parseCSVData csvData).data.length) := by
  unfold importCSVWithCOPY
  rw [if_neg (fun hl => h (List.length_eq_zero.mp hl))]
  simp

theorem c8_witness :
    (parseCSVData "h\nv".data).data ≠ [] ∧ (importCSVWithCOPY "h\nv".data 1).success = true :=
  ⟨by decide, (c8_amended "h\nv".data 1 (by decide)).mpr (by decide)⟩

/-! ## Claim C9 — preserving strategy: no drop, additive columns, truncate -/

theorem applyDDLs_addColumns (cols : List (List Char)) :
    ∀ (t : TableState),
    applyDDLs (some t) (cols.map DDLOp.alterAddColumn) =
      some ⟨t.cols ++ cols.map (fun c => (c, "TEXT".data)), t.rows⟩ := by
  induction cols with
  | nil => intro t; simp [applyDDLs]
  | cons c cs ih =>
    intro t
    simp only [List.map_cons, applyDDLs, List.foldl_cons, applyDDL]
    have := ih ⟨t.cols ++ [(c, "TEXT".data)], t.rows⟩
    simp only [applyDDLs] at this
    rw [this]
    simp

/-- C9: a preserving-strategy load into an existing destination table
issues no `DROP TABLE`, issues an explicit `TRUNCATE`, and its DDL leaves
the table with every existing column (name and type) unchanged followed by
exactly the incoming normalized headers not already present, each added as
a text column, with all rows removed; in particular a reload whose header
set is the existing columns plus one new header adds exactly that one
column. -/
theorem c9 (existingCols cleanedHeaders : List (List Char)) (t : TableState)
    (hcols : existingCols = t.cols.map Prod.fst) :
    DDLOp.dropTable ∉ copySchemaOps true true existingCols cleanedHeaders ∧
    DDLOp.truncate ∈ copySchemaOps true true existingCols cleanedHeaders ∧
    applyDDLs (some t) (copySchemaOps true true existingCols cleanedHeaders) =
      some ⟨t.cols ++
        (cleanedHeaders.filter (fun c => !existingCols.contains c)).map
          (fun c => (c, "TEXT".data)), 0⟩ ∧
    (∀ h, h ∉ existingCols → cleanedHeaders = existingCols ++ [h] →
      cleanedHeaders.filter (fun c => !existingCols.contains c) = [h]) := by
  refine ⟨?_, ?_, ?_, ?_⟩
  · unfold copySchemaOps
    simp only [if_pos]
    intro hmem
    rcases List.mem_append.mp hmem with hmem1 | hmem2
    · rcases List.mem_map.mp hmem1 with ⟨c, _, hc⟩
      exact DDLOp.noConfusion hc
    · simp at hmem2
  · unfold copySchemaOps
    simp only [if_pos]
    simp
  · unfold copySchemaOps
    simp only [if_pos]
    unfold applyDDLs
    rw [List.foldl_append]
    have h1 := applyDDLs_addColumns
      (cleanedHeaders.filter (fun c => !existingCols.contains c)) t
    simp only [applyDDLs] at h1
    rw [h1]
    simp [applyDDL]
  · intro h hnotmem heq
    subst heq
    rw [List.filter_append]
    have h1 : existingCols.filter (fun c => !existingCols.contains c) = [] := by
      rw [List.filter_eq_nil_iff]
      intro a ha
      simp [ha]
    have h2 : [h].filter (fun c => !existingCols.contains c) = [h] := by
      simp [hnotmem]
    rw [h1, h2]
    rfl

theorem c9_witness :
    ["a".data, "b".data] = (TableState.mk [("a".data, "TEXT".data), ("b".data, "int4".data)] 7).cols.map Prod.fst ∧
    applyDDLs (some ⟨[("a".data, "TEXT".data), ("b".data, "int4".data)], 7⟩)
        (copySchemaOps true true ["a".data, "b".data] ["a".data, "b".data, "c".data]) =
      some ⟨[("a".data, "TEXT".data), ("b".data, "int4".data), ("c".data, "TEXT".data)], 0⟩ :=
  ⟨by decide, by
    have := (c9 ["a".data, "b".data] ["a".data, "b".data, "c".data]
      ⟨[("a".data, "TEXT".data), ("b".data, "int4".data)], 7⟩ (by decide)).2.2.1
    rw [this]
    decide⟩

/-! ## Claim C1 — one table's failure and the fate of the run -/

/-- A load behaviour under which table `t1` throws (as
`importCSVWithCOPY`/`replicateTableEnhanced` do on any connection,
parse, DDL or COPY error) and every other table succeeds. -/
def c1BadLoad : List Char → List Char → Nat → Except (List Char) TableOutcome :=
  fun name _ _ =>
    if name = "t1".data then .error "Connection terminated unexpectedly".data
    else .ok ⟨true, false, 5, name⟩

/-- C1, counterexample: in a two-table run whose first table's load throws
(any thrown error of `importCSVWithCOPY` is rethrown by
`replicateTableEnhanced`, lines 2848-2851, and the loop of lines 2542-2582
has no `try`/`catch`), the whole `replicateTables` call rejects: the second
table is never processed and no result list is produced at all, let alone
a `failed` entry with `success = false`. -/
theorem c1_counterexample :
    replicateTables c1BadLoad [("t1".data, "h\n1".data), ("t2".data, "h\n2".data)] 1 =
      .error "Connection terminated unexpectedly".data ∧
    ∀ res, replicateTables c1BadLoad [("t1".data, "h\n1".data), ("t2".data, "h\n2".data)] 1 ≠
      .ok res := by
  have h1 : replicateTables c1BadLoad [("t1".data, "h\n1".data), ("t2".data, "h\n2".data)] 1 =
      .error "Connection terminated unexpectedly".data := rfl
  refine ⟨h1, ?_⟩
  intro res h
  rw [h1] at h
  exact Except.noConfusion h

theorem attemptLoop_ok_of_no_throw (load : Nat → Except (List Char) TableOutcome)
    (hok : ∀ a, (load a).isOk = true) :
    ∀ (rem attempt : Nat), 1 ≤ rem →
    ∃ r, attemptLoop load rem attempt = .ok (some r) := by
  intro rem
  induction rem with
  | zero => intro attempt h; omega
  | succ rem ih =>
    intro attempt _
    unfold attemptLoop
    cases hl : load attempt with
    | error e =>
      have := hok attempt
      rw [hl] at this
      simp [Except.isOk, Except.toBool] at this
    | ok r =>
      dsimp only
      by_cases hs : (r.success || r.partialSuccess) = true
      · exact ⟨r, by rw [if_pos hs]⟩
      · rw [Bool.not_eq_true] at hs
        rw [hs]
        cases rem with
        | zero => exact ⟨r, by simp⟩
        | succ rem' =>
          simp only [Bool.false_eq_true, if_false]
          exact ih (attempt + 1) (by omega)

/-- C1, amended: when no table's load throws — every call of
`replicateTableEnhanced` returns a result object rather than raising —
a run with a positive retry budget completes: each table lands in exactly
one of the `success`/`failed` lists, and every `failed` entry has
`success = false` (and no partial success).  A thrown error, by contrast,
terminates the whole run (see the counterexample). -/
theorem c1_amended (load : List Char → List Char → Nat → Except (List Char) TableOutcome)
    (tables : List (List Char × List Char)) (retryCount : Nat)
    (hrc : 1 ≤ retryCount)
    (hok : ∀ name csv a, (load name csv a).isOk = true) :
    ∃ res, replicateTables load tables retryCount = .ok res ∧
      res.success.length + res.failed.length = tables.length ∧
      ∀ r ∈ res.failed, r.success = false ∧ r.partialSuccess = false := by
  induction tables with
  | nil => exact ⟨⟨[], [], 0⟩, rfl, by simp, by simp⟩
  | cons tc ts ih =>
    obtain ⟨name, csv⟩ := tc
    obtain ⟨r, hr⟩ := attemptLoop_ok_of_no_throw (load name csv) (hok name csv) retryCount 1 hrc
    obtain ⟨rest, hrest, hlen, hfail⟩ := ih
    unfold replicateTables
    rw [hr, hrest]
    dsimp only
    by_cases hs : (r.success || r.partialSuccess) = true
    · rw [if_pos hs]
      refine ⟨_, rfl, ?_, ?_⟩
      · simp only [List.length_cons, List.length]
        omega
      · exact hfail
    · rw [if_neg hs]
      refine ⟨_, rfl, ?_, ?_⟩
      · simp only [List.length_cons, List.length]
        omega
      · intro x hx
        rcases List.mem_cons.mp hx with rfl | hx2
        · constructor
          · by_contra hxs
            rw [Bool.not_eq_false] at hxs
            exact hs (by simp [hxs])
          · by_contra hxp
            rw [Bool.not_eq_false] at hxp
            exact hs (by simp [hxp])
        · exact hfail x hx2

theorem c1_amended_witness :
    ∃ res, replicateTables (fun name _ _ => .ok ⟨false, false, 0, name⟩)
        [("t1".data, "h\n1".data)] 1 = .ok res ∧
      res.success.length + res.failed.length = 1 ∧
      ∀ r ∈ res.failed, r.success = false ∧ r.partialSuccess = false := by
  have := c1_amended (fun name _ _ => .ok ⟨false, false, 0, name⟩)
    [("t1".data, "h\n1".data)] 1 (by omega) (fun _ _ _ => rfl)
  simpa using this

/-! ## Claim C4 — mismatched lines are dropped, parsing continues, empty input -/

/-- A physical line that survives the blank-line filter of line 1703 and
does not get split further: no embedded newline, non-blank. -/
def keptLine (l : List Char) : Prop := '\n' ∉ l ∧ jsTrim l ≠ []

theorem splitOnNL_single (l : List Char) (h : '\n' ∉ l) : splitOnNL l = [l] := by
  induction l with
  | nil => rfl
  | cons c rest ih =>
    have hc : c ≠ '\n' := fun hcc => h (by simp [hcc])
    have hr := ih (fun hm => h (by simp [hm]))
    simp only [splitOnNL, if_neg hc, hr]

theorem splitOnNL_append (l cs : List Char) (h : '\n' ∉ l) :
    splitOnNL (l ++ '\n' :: cs) = l :: splitOnNL cs := by
  induction l with
  | nil => simp [splitOnNL]
  | cons c rest ih =>
    have hc : c ≠ '\n' := fun hcc => h (by simp [hcc])
    have hr := ih (fun hm => h (by simp [hm]))
    rw [List.cons_append]
    simp only [splitOnNL, if_neg hc, hr]

theorem splitOnNL_joinSep : ∀ (ls : List (List Char)), ls ≠ [] →
    (∀ l ∈ ls, '\n' ∉ l) → splitOnNL (joinSep '\n' ls) = ls := by
  intro ls
  induction ls with
  | nil => intro h; exact absurd rfl h
  | cons l rest ih =>
    intro _ hall
    cases rest with
    | nil => exact splitOnNL_single l (hall l (by simp))
    | cons l2 rest2 =>
      show splitOnNL (l ++ '\n' :: joinSep '\n' (l2 :: rest2)) = _
      rw [splitOnNL_append l _ (hall l (by simp))]
      rw [ih (by simp) (fun x hx => hall x (by simp [hx]))]

theorem csvLines_joinSep (ls : List (List Char)) (hne : ls ≠ [])
    (hall : ∀ l ∈ ls, keptLine l) : csvLines (joinSep '\n' ls) = ls := by
  unfold csvLines
  rw [splitOnNL_joinSep ls hne (fun l hl => (hall l hl).1)]
  rw [List.filter_eq_self]
  intro l hl
  have := (hall l hl).2
  simp only [Bool.not_eq_eq_eq_not, Bool.not_false, List.isEmpty_iff]
  simpa using this

/-- C4: the empty input parses to an empty header list and an empty record
list rather than an error, and a data line whose token count differs from
the header count is dropped while every other line parses as if the bad
line were absent: removing the bad line from the input leaves the parse
result unchanged. -/
theorem c4 (hdr bad : List Char) (pre post : List (List Char))
    (hhdr : keptLine hdr) (hbad : keptLine bad)
    (hpre : ∀ l ∈ pre, keptLine l) (hpost : ∀ l ∈ post, keptLine l)
    (hcount : (lineTokens bad).length ≠ (lineTokens hdr).length) :
    parseCSVData [] = ⟨[], []⟩ ∧
    parseCSVData (joinSep '\n' (hdr :: (pre ++ bad :: post))) =
      parseCSVData (joinSep '\n' (hdr :: (pre ++ post))) := by
  refine ⟨by decide, ?_⟩
  have hall1 : ∀ l ∈ hdr :: (pre ++ bad :: post), keptLine l := by
    intro l hl
    rcases List.mem_cons.mp hl with rfl | hl2
    · exact hhdr
    · rcases List.mem_append.mp hl2 with h1 | h2
      · exact hpre l h1
      · rcases List.mem_cons.mp h2 with rfl | h3
        · exact hbad
        · exact hpost l h3
  have hall2 : ∀ l ∈ hdr :: (pre ++ post), keptLine l := by
    intro l hl
    rcases List.mem_cons.mp hl with rfl | hl2
    · exact hhdr
    · rcases List.mem_append.mp hl2 with h1 | h2
      · exact hpre l h1
      · exact hpost l h2
  have hcl1 := csvLines_joinSep _ (by simp) hall1
  have hcl2 := csvLines_joinSep _ (by simp) hall2
  unfold parseCSVData
  rw [hcl1, hcl2]
  dsimp only
  congr 1
  rw [List.filterMap_append, List.filterMap_append]
  congr 1
  rw [List.filterMap_cons]
  have hne : ¬((lineTokens bad).length = ((lineTokens hdr).map tokenValue).length) := by
    rw [List.length_map]
    exact hcount
  rw [if_neg hne]

theorem c4_witness :
    parseCSVData [] = ⟨[], []⟩ ∧
    parseCSVData (joinSep '\n' ["a,b".data, "1,2,3".data, "3,4".data]) =
      parseCSVData (joinSep '\n' ["a,b".data, "3,4".data]) := by
  have := c4 "a,b".data "1,2,3".data [] ["3,4".data]
    (by constructor <;> decide) (by constructor <;> decide)
    (by intro l hl; simp at hl) (by
      intro l hl
      simp only [List.mem_singleton] at hl
      subst hl
      constructor <;> decide)
    (by decide)
  simpa using this

/-! ## Claim C6 — normalizer: injective positions, deterministic -/

theorem cleanHeadersAux_length (md5hex8 : List Char → List Char) :
    ∀ (hs : List (List Char)) (idx : Nat) (seen : List (List Char)),
    (cleanHeadersAux md5hex8 hs idx seen).cleanedHeaders.length = hs.length := by
  intro hs
  induction hs with
  | nil => intro idx seen; rfl
  | cons h hs ih =>
    intro idx seen
    simp only [cleanHeadersAux, List.length_cons]
    rw [ih]

/-- C6: for every raw header list — duplicates, empty and non-ASCII
entries included — and every hash function (so in particular the stable
MD5 of the source), the normalized header list has no duplicate names, one
name per position (the position-to-name map is injective and total), and
the whole normalization is a pure function of the header list: equal
inputs give the identical name at every position, hash-based names
included. -/
theorem c6 (md5hex8 : List Char → List Char) (headers : List (List Char)) :
    (cleanHeaders md5hex8 headers).cleanedHeaders.Nodup ∧
    (cleanHeaders md5hex8 headers).cleanedHeaders.length = headers.length ∧
    Function.Injective (cleanHeaders md5hex8 headers).cleanedHeaders.get ∧
    ∀ headers2, headers = headers2 →
      cleanHeaders md5hex8 headers = cleanHeaders md5hex8 headers2 := by
  refine ⟨(cleanHeadersAux_nodup md5hex8 headers 0 []).1,
    cleanHeadersAux_length md5hex8 headers 0 [], ?_, ?_⟩
  · exact List.nodup_iff_injective_get.mp (cleanHeadersAux_nodup md5hex8 headers 0 []).1
  · intro headers2 h
    rw [h]

/-- A stand-in for the 8-hex-character MD5 prefix, used only to witness
the statements at concrete inputs (they hold for every hash function). -/
def dummyMd5 : List Char → List Char := fun _ => "0a1b2c3d".data

theorem c6_witness :
    (cleanHeaders dummyMd5 ["a".data, "a".data, "عربي".data, "".data]).cleanedHeaders.Nodup ∧
    (cleanHeaders dummyMd5 ["a".data, "a".data, "عربي".data, "".data]).cleanedHeaders =
      ["a".data, "a_1".data, "col_2_0a1b2c3d".data, "col_3_empty".data] :=
  ⟨(c6 dummyMd5 ["a".data, "a".data, "عربي".data, "".data]).1, by decide⟩

/-! ## Claim C2 — LoadResult aggregation of the batched loader -/

/-- A batch behaviour: two batches of one record each, the second rejected
non-fatally. -/
def c2Outcome : Nat → Option (List Char) :=
  fun j => if j = 1 then some "value too long for type character varying".data else none

/-- C2, counterexample: `successRate` is not `inserted / total` — the code
stores `Math.round((inserted / total) * 100)` (line 2354), a rounded
percentage.  With 1 of 2 records inserted the stored rate is `50`, not
`1/2`. -/
theorem c2_counterexample :
    ((insertDataInBatches c2Outcome 2 1).successRate : ℚ) ≠
      ((insertDataInBatches c2Outcome 2 1).inserted : ℚ) /
        ((insertDataInBatches c2Outcome 2 1).totalRecords : ℚ) := by
  have h1 : (insertDataInBatches c2Outcome 2 1).successRate = 50 := by decide
  have h2 : (insertDataInBatches c2Outcome 2 1).inserted = 1 := by decide
  have h3 : (insertDataInBatches c2Outcome 2 1).totalRecords = 2 := by decide
  rw [h1, h2, h3]
  norm_num

/-- C2, amended: for every batched load of `n > 0` records, `inserted` is
the sum of the record counts of the batches whose insert succeeded (those
accepted before any fatal abort), `failed = n - inserted`, `successRate`
is `Math.round((inserted / n) * 100)` — the rounded percentage, not the
ratio itself — `success` holds iff no recorded error is fatal and
`inserted > 0`, and `partialSuccess` holds iff `inserted > 0` and the
error list is non-empty. -/
theorem c2_amended (outcome : Nat → Option (List Char)) (n bs : Nat) (hn : 0 < n) :
    (insertDataInBatches outcome n bs).inserted = succeededSum outcome n bs ∧
    (insertDataInBatches outcome n bs).failed = n - (insertDataInBatches outcome n bs).inserted ∧
    ((insertDataInBatches outcome n bs).successRate : ℤ) =
      jsRound (((insertDataInBatches outcome n bs).inserted : ℚ) / n * 100) ∧
    ((insertDataInBatches outcome n bs).success = true ↔
      (∀ e ∈ (insertDataInBatches outcome n bs).errors, e.fatal = false) ∧
      0 < (insertDataInBatches outcome n bs).inserted) ∧
    ((insertDataInBatches outcome n bs).partialSuccess = true ↔
      0 < (insertDataInBatches outcome n bs).inserted ∧
      (insertDataInBatches outcome n bs).errors ≠ []) := by
  refine ⟨insertDataInBatches_inserted outcome n bs, rfl,
    successRatePct_eq_round (insertDataInBatches outcome n bs).inserted n hn, ?_, ?_⟩
  · unfold insertDataInBatches
    dsimp only
    rw [Bool.and_eq_true, List.isEmpty_iff, List.filter_eq_nil_iff]
    constructor
    · rintro ⟨h1, h2⟩
      exact ⟨fun e he => by simpa using h1 e he, by simpa using h2⟩
    · rintro ⟨h1, h2⟩
      exact ⟨fun e he => by simp [h1 e he], by simpa using h2⟩
  · unfold insertDataInBatches
    dsimp only
    rw [Bool.and_eq_true]
    simp only [decide_eq_true_eq]
    rw [List.length_pos]

theorem c2_witness :
    0 < 2 ∧ (insertDataInBatches c2Outcome 2 1).partialSuccess = true :=
  ⟨by omega, ((c2_amended c2Outcome 2 1 (by omega)).2.2.2.2).mpr ⟨by decide, by decide⟩⟩

/-! ## Claim C3 — ten batches, batch 3 rejected non-fatally -/

/-- Ten one-record batches; batch ordinal 2 (error entry `batch = 3`)
rejected non-fatally. -/
def c3Outcome : Nat → Option (List Char) :=
  fun j => if j = 2 then some "value too long for type character varying".data else none

/-- C3, counterexample: in exactly the claimed scenario (10 batches, batch
3 alone rejected with a non-fatal error) the code computes
`success = (no fatal error) && (inserted > 0)` (line 2350), which is
`true`, not the claimed `false`: `inserted = 9` of 10, the single error
entry references batch 3, `partialSuccess = true` — but `success ≠ false`. -/
theorem c3_counterexample :
    (insertDataInBatches c3Outcome 10 1).inserted = 9 ∧
    (insertDataInBatches c3Outcome 10 1).errors =
      [⟨3, "value too long for type character varying".data, false⟩] ∧
    (insertDataInBatches c3Outcome 10 1).partialSuccess = true ∧
    ¬((insertDataInBatches c3Outcome 10 1).success = false) := by
  refine ⟨by decide, by decide, by decide, ?_⟩
  intro h
  rw [(by decide : (insertDataInBatches c3Outcome 10 1).success = true)] at h
  exact Bool.noConfusion h

set_option maxHeartbeats 2000000 in
/-- C3, amended: for a batched load whose records form exactly 10 batches,
where batch 3 alone is rejected with a non-fatal error and all other
batches succeed, `inserted` is the sum of the other 9 batches' row counts
(`n - bs`), the error list has exactly one entry referencing batch 3,
`partialSuccess = true` — and `success = true` as well, since no error was
fatal and some records were inserted. -/
theorem c3_amended (outcome : Nat → Option (List Char)) (n bs : Nat) (msg : List Char)
    (hbs : 0 < bs) (h9 : 9 * bs < n) (h10 : n ≤ 10 * bs)
    (hout2 : outcome 2 = some msg) (hmsg : isFatalMsg msg = false)
    (hother : ∀ j, j ≠ 2 → outcome j = none) :
    (insertDataInBatches outcome n bs).inserted = n - bs ∧
    (insertDataInBatches outcome n bs).errors = [⟨3, msg, false⟩] ∧
    (insertDataInBatches outcome n bs).partialSuccess = true ∧
    (insertDataInBatches outcome n bs).success = true := by
  have hnum : numBatches n bs = 10 := by
    unfold numBatches
    apply Nat.div_eq_of_lt_le
    · omega
    · omega
  have e0 : outcome 0 = none := hother 0 (by omega)
  have e1 : outcome 1 = none := hother 1 (by omega)
  have e3 : outcome 3 = none := hother 3 (by omega)
  have e4 : outcome 4 = none := hother 4 (by omega)
  have e5 : outcome 5 = none := hother 5 (by omega)
  have e6 : outcome 6 = none := hother 6 (by omega)
  have e7 : outcome 7 = none := hother 7 (by omega)
  have e8 : outcome 8 = none := hother 8 (by omega)
  have e9 : outcome 9 = none := hother 9 (by omega)
  have hrange : List.range 10 = [0, 1, 2, 3, 4, 5, 6, 7, 8, 9] := by
    rfl
  have hfatal : ¬(isFatalMsg msg = true) := by
    rw [hmsg]
    exact Bool.false_ne_true
  have hrun : processBatches outcome n bs (List.range 10) =
      (sliceLen n bs 0 + (sliceLen n bs 1 + (sliceLen n bs 3 + (sliceLen n bs 4 +
        (sliceLen n bs 5 + (sliceLen n bs 6 + (sliceLen n bs 7 + (sliceLen n bs 8 +
          (sliceLen n bs 9 + 0)))))))), [⟨3, msg, false⟩]) := by
    rw [hrange]
    simp only [processBatches, e0, e1, hout2, e3, e4, e5, e6, e7, e8, e9]
    rw [if_neg hfatal]
  have hins : sliceLen n bs 0 + (sliceLen n bs 1 + (sliceLen n bs 3 + (sliceLen n bs 4 +
      (sliceLen n bs 5 + (sliceLen n bs 6 + (sliceLen n bs 7 + (sliceLen n bs 8 +
        (sliceLen n bs 9 + 0)))))))) = n - bs := by
    simp only [sliceLen]
    omega
  unfold insertDataInBatches
  rw [hnum, hrun]
  dsimp only
  rw [hins]
  refine ⟨rfl, rfl, ?_, ?_⟩
  · simp only [Bool.and_eq_true, decide_eq_true_eq]
    refine ⟨by omega, by simp⟩
  · simp only [Bool.and_eq_true, decide_eq_true_eq, List.isEmpty_iff]
    refine ⟨?_, by omega⟩
    rw [List.filter_eq_nil_iff]
    intro e he
    simp only [List.mem_singleton] at he
    subst he
    simp

theorem c3_amended_witness :
    (insertDataInBatches c3Outcome 10 1).inserted = 10 - 1 ∧
    (insertDataInBatches c3Outcome 10 1).errors =
      [⟨3, "value too long for type character varying".data, false⟩] ∧
    (insertDataInBatches c3Outcome 10 1).partialSuccess = true ∧
    (insertDataInBatches c3Outcome 10 1).success = true :=
  c3_amended c3Outcome 10 1 "value too long for type character varying".data
    (by omega) (by omega) (by omega) (by decide) (by decide)
    (fun j hj => by simp [c3Outcome, hj])

/-! ## Claim C5 — quoted fields: wrapping quotes stripped, `""` NOT un-escaped -/

/-- Interior of a well-formed quoted CSV field: double quotes occur only
as adjacent `""` pairs. -/
def quotesPaired : List Char → Bool
  | [] => true
  | '"' :: '"' :: rest => quotesPaired rest
  | '"' :: _ => false
  | _ :: rest => quotesPaired rest

theorem scanQ_paired : ∀ (X : List Char), quotesPaired X = true →
    scanQ (X ++ ['"']) = some (X, []) := by
  intro X
  induction X using quotesPaired.induct
  all_goals intro h
  all_goals simp_all [quotesPaired, scanQ, List.cons_append]

theorem jsTrim_cons_ne_nil (c : Char) (rest : List Char) (hc : isWS c = false) :
    jsTrim (c :: rest) ≠ [] := by
  unfold jsTrim
  rw [List.dropWhile_cons_of_neg (by simp [hc])]
  intro hemp
  rw [List.reverse_eq_nil_iff, List.dropWhile_eq_nil_iff] at hemp
  have := hemp c (by simp)
  rw [hc] at this
  exact Bool.noConfusion this

/-- C5, counterexample: the parser strips the wrapping quotes of the
quoted field `"a""b"` but never un-escapes the embedded `""` — the value
extraction of line 1729 is only `.replace(/^,/, '').replace(/^"|"$/g, '')`
— so the parsed value is `a""b`, not the claimed `a"b`. -/
theorem c5_counterexample :
    (parseCSVData "h\n\"a\"\"b\"".data).data =
      [[(['h'], some ['a', '"', '"', 'b'])]] ∧
    some ['a', '"', '"', 'b'] ≠ some ['a', '"', 'b'] := by
  constructor
  · decide
  · decide

/-- C5, amended: for every fully quoted CSV field, the parser strips the
wrapping double quotes and keeps the interior verbatim (then trims it; the
empty value becomes null): embedded doubled quotes `""` are NOT un-escaped
to `"`; for example the field `"a""b"` parses to the value `a""b`. -/
theorem c5_amended (X : List Char) (hq : quotesPaired X = true) (hn : '\n' ∉ X) :
    parseCSVData ('h' :: '\n' :: '"' :: (X ++ ['"'])) =
      ⟨[['h']], [[(['h'], rowValue (jsTrim X))]]⟩ := by
  have hline : ('h' :: '\n' :: '"' :: (X ++ ['"'])) =
      joinSep '\n' [['h'], '"' :: (X ++ ['"'])] := by
    rfl
  have hkept : ∀ l ∈ [['h'], '"' :: (X ++ ['"'])], keptLine l := by
    intro l hl
    rcases List.mem_cons.mp hl with rfl | hl2
    · exact ⟨by decide, by decide⟩
    · rcases List.mem_cons.mp hl2 with rfl | hl3
      · refine ⟨?_, jsTrim_cons_ne_nil '"' _ (by decide)⟩
        intro hmem
        rcases List.mem_cons.mp hmem with heq | hmem2
        · exact absurd heq (by decide)
        · rcases List.mem_append.mp hmem2 with h1 | h2
          · exact hn h1
          · simp at h2
      · simp at hl3
  have hfield : fieldFrom ('"' :: (X ++ ['"'])) = ('"' :: (X ++ ['"']), []) := by
    show (match scanQ (X ++ ['"']) with
      | some (body, r) => ('"' :: body ++ ['"'], r)
      | none => (('"' :: (X ++ ['"'])).takeWhile notComma,
          ('"' :: (X ++ ['"'])).dropWhile notComma)) = _
    rw [scanQ_paired X hq]
    simp
  have htok : lineTokens ('"' :: (X ++ ['"'])) = ['"' :: (X ++ ['"'])] := by
    unfold lineTokens
    rw [hfield]
    dsimp only
    rw [if_neg (by simp)]
    rw [scanTail_eq_nil [] rfl]
  have hhdrs : List.map tokenValue (lineTokens ['h']) = [['h']] := by decide
  have hval : tokenValue ('"' :: (X ++ ['"'])) = jsTrim X := by
    have h2 : stripWrapQuotes (stripLeadComma ('"' :: (X ++ ['"']))) =
        match (X ++ ['"']).getLast? with
        | some '"' => (X ++ ['"']).dropLast
        | _ => X ++ ['"'] := rfl
    unfold tokenValue
    rw [h2, List.getLast?_concat]
    show jsTrim ((X ++ ['"']).dropLast) = jsTrim X
    rw [List.dropLast_concat]
  rw [hline]
  unfold parseCSVData
  rw [csvLines_joinSep _ (by simp) hkept]
  show (ParseResult.mk (List.map tokenValue (lineTokens ['h']))
      (List.filterMap (fun line =>
        if (lineTokens line).length = (List.map tokenValue (lineTokens ['h'])).length then
          some (mkRow (List.map tokenValue (lineTokens ['h'])) (List.map tokenValue (lineTokens line)))
        else none) ['"' :: (X ++ ['"'])])) = _
  rw [hhdrs, List.filterMap_cons]
  rw [htok]
  rw [if_pos (by simp)]
  rw [List.map_cons, List.map_nil, hval]
  simp [mkRow]

theorem c5_amended_witness :
    parseCSVData ('h' :: '\n' :: '"' :: ("a\"\"b".data ++ ['"'])) =
      ⟨[['h']], [[(['h'], rowValue (jsTrim "a\"\"b".data))]]⟩ :=
  c5_amended "a\"\"b".data (by decide) (by decide)

/-! ## Claim C7 — comma-only numeric values -/

def digitChars : List Char := ['0', '1', '2', '3', '4', '5', '6', '7', '8', '9']

theorem digit_facts : ∀ c ∈ digitChars,
    c.isDigit = true ∧ isWS c = false ∧ isSARWS c = false ∧ isDigitComma c = true ∧
    c ≠ ',' ∧ c ≠ '.' ∧ c ≠ '-' ∧ c ≠ '+' ∧ c ≠ 'K' ∧ c ≠ '%' := by
  decide

theorem takeWhile_eq_self_of_all {α : Type} (p : α → Bool) :
    ∀ (l : List α), (∀ c ∈ l, p c = true) → l.takeWhile p = l := by
  intro l
  induction l with
  | nil => intro _; rfl
  | cons c rest ih =>
    intro h
    rw [List.takeWhile_cons_of_pos (h c (by simp))]
    rw [ih (fun x hx => h x (by simp [hx]))]

theorem signOf_digit (c : Char) (hc : c ∈ digitChars) (rest : List Char) :
    signOf (c :: rest) = false := by
  fin_cases hc <;> rfl

theorem plusOf_digit (c : Char) (hc : c ∈ digitChars) (rest : List Char) :
    plusOf (c :: rest) = false := by
  fin_cases hc <;> rfl

theorem stripSign_digit (c : Char) (hc : c ∈ digitChars) (rest : List Char) :
    stripSign (c :: rest) = c :: rest := by
  fin_cases hc <;> rfl

theorem digit_p1keep :
    ∀ c ∈ digitChars, (!(isSARWS c || c = ',' || c = 'K' || c = '%')) = true := by
  decide

theorem digit_neComma : ∀ c ∈ digitChars, (decide (c ≠ ',')) = true := by
  decide

theorem digit_notWS : ∀ c ∈ digitChars, (!isWS c) = true := by
  decide

theorem digit_p3class :
    ∀ c ∈ digitChars, (c.isDigit || c = ',' || c = '.' || isWS c) = true := by
  decide

theorem jsNumberUnsigned_digits (l : List Char) (hl : l ≠ [])
    (hd : ∀ c ∈ l, c ∈ digitChars) :
    jsNumberUnsigned l = some ⟨(digitsToNat l : Int), 0⟩ := by
  unfold jsNumberUnsigned
  rw [takeWhile_eq_self_of_all Char.isDigit l (fun c hc => (digit_facts c (hd c hc)).1)]
  rw [dropWhile_eq_nil_of_all Char.isDigit l (fun c hc => (digit_facts c (hd c hc)).1)]
  dsimp only
  rw [if_neg (by simpa [List.isEmpty_iff] using hl)]
  unfold decOf
  rw [List.append_nil]
  rfl

theorem jsNumber_digits (l : List Char) (hl : l ≠ [])
    (hd : ∀ c ∈ l, c ∈ digitChars) :
    jsNumber l = some ⟨(digitsToNat l : Int), 0⟩ := by
  obtain ⟨c, rest, rfl⟩ := List.exists_cons_of_ne_nil hl
  unfold jsNumber
  rw [jsTrim_eq_self_of_all _ (fun x hx => (digit_facts x (hd x hx)).2.1)]
  rw [if_neg (by simp [List.isEmpty_iff])]
  have hsign : ¬(signOf (c :: rest) = true) := by
    rw [signOf_digit c (hd c (by simp)) rest]
    exact Bool.false_ne_true
  rw [if_neg hsign]
  have hplus : ¬(plusOf (c :: rest) = true) := by
    rw [plusOf_digit c (hd c (by simp)) rest]
    exact Bool.false_ne_true
  rw [if_neg hplus]
  exact jsNumberUnsigned_digits _ hl hd

theorem jsParseFloat_digits (l : List Char) (hl : l ≠ [])
    (hd : ∀ c ∈ l, c ∈ digitChars) :
    jsParseFloat l = some ⟨(digitsToNat l : Int), 0⟩ := by
  obtain ⟨c, rest, rfl⟩ := List.exists_cons_of_ne_nil hl
  unfold jsParseFloat
  dsimp only
  rw [dropWhile_eq_self_of_all isWS _ (fun x hx => (digit_facts x (hd x hx)).2.1)]
  rw [signOf_digit c (hd c (by simp)) rest, stripSign_digit c (hd c (by simp)) rest]
  rw [takeWhile_eq_self_of_all Char.isDigit _ (fun x hx => (digit_facts x (hd x hx)).1)]
  rw [dropWhile_eq_nil_of_all Char.isDigit _ (fun x hx => (digit_facts x (hd x hx)).1)]
  rw [if_neg (by simp [List.isEmpty_iff, fpOf])]
  simp [decOf, fpOf]

theorem signOf_minus (l : List Char) : signOf ('-' :: l) = true := rfl

theorem stripSign_minus (l : List Char) : stripSign ('-' :: l) = l := rfl

theorem stripMinus_minus (l : List Char) : stripMinus ('-' :: l) = l := rfl

theorem stripDot_comma (b : List Char) : stripDot (',' :: b) = ',' :: b := rfl

theorem jsParseFloat_neg_digits (l : List Char) (hl : l ≠ [])
    (hd : ∀ c ∈ l, c ∈ digitChars) :
    jsParseFloat ('-' :: l) = some ⟨-(digitsToNat l : Int), 0⟩ := by
  unfold jsParseFloat
  dsimp only
  rw [List.dropWhile_cons_of_neg (by decide)]
  rw [signOf_minus, stripSign_minus]
  rw [takeWhile_eq_self_of_all Char.isDigit _ (fun x hx => (digit_facts x (hd x hx)).1)]
  rw [dropWhile_eq_nil_of_all Char.isDigit _ (fun x hx => (digit_facts x (hd x hx)).1)]
  rw [if_neg (by simpa [List.isEmpty_iff, fpOf] using hl)]
  simp [decOf, fpOf]

theorem jsParseFloat_neg_decimal (a b : List Char) (ha : a ≠ [])
    (hda : ∀ c ∈ a, c ∈ digitChars) (hdb : ∀ c ∈ b, c ∈ digitChars) :
    jsParseFloat ('-' :: (a ++ '.' :: b)) = some ⟨-(digitsToNat (a ++ b) : Int), b.length⟩ := by
  unfold jsParseFloat
  dsimp only
  rw [List.dropWhile_cons_of_neg (by decide)]
  rw [signOf_minus, stripSign_minus]
  rw [takeWhile_append_of_all Char.isDigit '.' a b
    (fun x hx => (digit_facts x (hda x hx)).1) (by decide)]
  rw [dropWhile_append_of_all Char.isDigit '.' a b
    (fun x hx => (digit_facts x (hda x hx)).1) (by decide)]
  have hfp : fpOf ('.' :: b) = b := by
    show b.takeWhile Char.isDigit = b
    exact takeWhile_eq_self_of_all Char.isDigit b (fun x hx => (digit_facts x (hdb x hx)).1)
  rw [hfp]
  rw [if_neg (by simp [List.isEmpty_iff, ha])]
  simp [decOf]

theorem matchP1_digits_comma (a b : List Char) (ha : a ≠ [])
    (hda : ∀ c ∈ a, c ∈ digitChars) (hdb : ∀ c ∈ b, c ∈ digitChars) :
    matchP1 (a ++ ',' :: b) = true := by
  have hall1 : ∀ x ∈ a ++ ',' :: b, isSARWS x = false := by
    intro x hx
    rcases List.mem_append.mp hx with h1 | h2
    · exact (digit_facts x (hda x h1)).2.2.1
    · rcases List.mem_cons.mp h2 with rfl | h3
      · decide
      · exact (digit_facts x (hdb x h3)).2.2.1
  have hall2 : ∀ x ∈ a ++ ',' :: b, isDigitComma x = true := by
    intro x hx
    rcases List.mem_append.mp hx with h1 | h2
    · exact (digit_facts x (hda x h1)).2.2.2.1
    · rcases List.mem_cons.mp h2 with rfl | h3
      · decide
      · exact (digit_facts x (hdb x h3)).2.2.2.1
  unfold matchP1
  dsimp only
  rw [dropWhile_eq_self_of_all isSARWS _ hall1]
  rw [dropWhile_eq_nil_of_all isDigitComma _ hall2]
  rw [if_neg (by simp only [List.length_append, List.length_cons, List.length_nil]; omega)]
  rfl

theorem matchP1_minus (x : List Char) : matchP1 ('-' :: x) = false := by
  unfold matchP1
  dsimp only
  rw [List.dropWhile_cons_of_neg (by decide)]
  rw [List.dropWhile_cons_of_neg (by decide)]
  rw [if_pos rfl]

theorem matchP1b_minus (x : List Char) : matchP1b ('-' :: x) = false := rfl

theorem matchP2_minus_comma (a b : List Char) (ha : a ≠ [])
    (hda : ∀ c ∈ a, c ∈ digitChars) :
    matchP2 ('-' :: (a ++ ',' :: b)) = false := by
  unfold matchP2
  dsimp only
  rw [stripMinus_minus]
  rw [dropWhile_append_of_all Char.isDigit ',' a b
    (fun x hx => (digit_facts x (hda x hx)).1) (by decide)]
  rw [if_neg (by
    simp only [List.length_append, List.length_cons]
    have : 0 < a.length := List.length_pos.mpr ha
    omega)]
  rw [stripDot_comma]
  rw [List.dropWhile_cons_of_neg (by decide)]
  rfl

theorem matchP3_minus_comma (a b : List Char)
    (hda : ∀ c ∈ a, c ∈ digitChars) (hdb : ∀ c ∈ b, c ∈ digitChars) :
    matchP3 ('-' :: (a ++ ',' :: b)) = true := by
  unfold matchP3
  dsimp only
  rw [stripMinus_minus]
  have hall : ∀ x ∈ a ++ ',' :: b, (x.isDigit || x = ',' || x = '.' || isWS x) = true := by
    intro x hx
    rcases List.mem_append.mp hx with h1 | h2
    · exact digit_p3class x (hda x h1)
    · rcases List.mem_cons.mp h2 with rfl | h3
      · decide
      · exact digit_p3class x (hdb x h3)
  rw [List.all_eq_true.mpr (fun x hx => hall x hx)]
  simp [List.isEmpty_iff]

theorem replaceFirstComma_prefix (suf : List Char) :
    ∀ (pre : List Char), (∀ c ∈ pre, c ≠ ',') →
    replaceFirstComma (pre ++ ',' :: suf) = pre ++ '.' :: suf := by
  intro pre
  induction pre with
  | nil =>
    intro _
    simp [replaceFirstComma]
  | cons c cs ih =>
    intro h
    rw [List.cons_append]
    unfold replaceFirstComma
    rw [if_neg (h c (by simp))]
    rw [ih (fun x hx => h x (by simp [hx]))]
    rfl

theorem p3Clean_minus_comma (a b : List Char) (ha : a ≠ []) (hb : b ≠ [])
    (hda : ∀ c ∈ a, c ∈ digitChars) (hdb : ∀ c ∈ b, c ∈ digitChars) :
    p3Clean ('-' :: (a ++ ',' :: b)) =
      if b.length ≤ 2 then '-' :: (a ++ '.' :: b) else '-' :: (a ++ b) := by
  have hmem : (',' : Char) ∈ '-' :: (a ++ ',' :: b) := by simp
  have hcontains : ('-' :: (a ++ ',' :: b)).contains ',' = true :=
    List.elem_iff.mpr hmem
  have hnodot : ('-' :: (a ++ ',' :: b)).contains '.' = false := by
    rw [Bool.eq_false_iff]
    intro hcon
    have hcon2 : ('.' : Char) ∈ '-' :: (a ++ ',' :: b) := List.elem_iff.mp hcon
    rcases List.mem_cons.mp hcon2 with heq | hmem2
    · exact absurd heq (by decide)
    · rcases List.mem_append.mp hmem2 with h1 | h2
      · exact (digit_facts '.' (hda '.' h1)).2.2.2.2.2.1 rfl
      · rcases List.mem_cons.mp h2 with heq2 | h3
        · exact absurd heq2 (by decide)
        · exact (digit_facts '.' (hdb '.' h3)).2.2.2.2.2.1 rfl
  unfold p3Clean
  dsimp only
  rw [hcontains, hnodot]
  simp only [Bool.and_false, Bool.not_false, Bool.true_and]
  rw [if_pos trivial]
  have hafter : (('-' :: (a ++ ',' :: b)).dropWhile (fun c => c ≠ ',')).drop 1 = b := by
    rw [List.dropWhile_cons_of_pos (by decide)]
    rw [dropWhile_append_of_all (fun c => decide (c ≠ ',')) ',' a b
      (fun x hx => digit_neComma x (hda x hx)) (by decide)]
    rfl
  rw [hafter]
  have hballd : b.all Char.isDigit = true :=
    List.all_eq_true.mpr (fun x hx => (digit_facts x (hdb x hx)).1)
  have hbne : (!b.isEmpty) = true := by
    simp [List.isEmpty_iff, hb]
  by_cases hlen : b.length ≤ 2
  · rw [if_pos hlen]
    have hcond : (decide (b.length ≤ 2) && !b.isEmpty && b.all Char.isDigit) = true := by
      rw [decide_eq_true hlen, hbne, hballd]
      rfl
    rw [if_pos hcond]
    have hrep : replaceFirstComma ('-' :: (a ++ ',' :: b)) = '-' :: (a ++ '.' :: b) := by
      have := replaceFirstComma_prefix b ('-' :: a) (by
        intro c hc
        rcases List.mem_cons.mp hc with rfl | h2
        · decide
        · exact (digit_facts c (hda c h2)).2.2.2.2.1)
      simpa using this
    rw [hrep]
    apply List.filter_eq_self.mpr
    intro x hx
    rcases List.mem_cons.mp hx with rfl | h2
    · decide
    · rcases List.mem_append.mp h2 with h3 | h4
      · exact digit_notWS x (hda x h3)
      · rcases List.mem_cons.mp h4 with rfl | h5
        · decide
        · exact digit_notWS x (hdb x h5)
  · rw [if_neg hlen]
    have hcond : (decide (b.length ≤ 2) && !b.isEmpty && b.all Char.isDigit) = false := by
      rw [decide_eq_false hlen]
      simp only [Bool.false_and]
    have hnc : ¬((decide (b.length ≤ 2) && !b.isEmpty && b.all Char.isDigit) = true) := by
      rw [hcond]
      exact Bool.false_ne_true
    rw [if_neg hnc]
    have hfil : ('-' :: (a ++ ',' :: b)).filter (fun c => c ≠ ',') = '-' :: (a ++ b) := by
      rw [List.filter_cons_of_pos (by decide)]
      rw [List.filter_append]
      rw [List.filter_cons_of_neg (by decide)]
      rw [List.filter_eq_self.mpr (fun x hx => digit_neComma x (hda x hx))]
      rw [List.filter_eq_self.mpr (fun x hx => digit_neComma x (hdb x hx))]
    rw [hfil]
    apply List.filter_eq_self.mpr
    intro x hx
    rcases List.mem_cons.mp hx with rfl | h2
    · decide
    · rcases List.mem_append.mp h2 with h3 | h4
      · exact digit_notWS x (hda x h3)
      · exact digit_notWS x (hdb x h4)

theorem p1Clean_digits_comma (a b : List Char)
    (hda : ∀ c ∈ a, c ∈ digitChars) (hdb : ∀ c ∈ b, c ∈ digitChars) :
    p1Clean (a ++ ',' :: b) = a ++ b := by
  unfold p1Clean
  rw [List.filter_append]
  rw [List.filter_cons_of_neg (by decide)]
  rw [List.filter_eq_self.mpr (fun x hx => digit_p1keep x (hda x hx))]
  rw [List.filter_eq_self.mpr (fun x hx => digit_p1keep x (hdb x hx))]

/-- C7, counterexample: `"1,23"` (two digits after the comma, no period)
matches Pattern 1 (line 1919) first, which strips every comma as
formatting, so the cleaner returns 123 — not the claimed decimal 1.23.
The ≤2-digits decimal-comma rule only runs in the later Pattern 3. -/
theorem c7_counterexample :
    cleanNumericValue "1,23".data "total".data = .num ⟨123, 0⟩ ∧
    Dec.toRat ⟨123, 0⟩ ≠ Dec.toRat ⟨123, 2⟩ := by
  constructor
  · decide
  · unfold Dec.toRat
    norm_num

/-- C7, amended: for a plain nonnegative digits-comma-digits value the
comma is always stripped as a thousands separator by Pattern 1, whatever
the number of digits after it (`"1,23"` gives 123 and `"1,2345"` gives
12345); the claimed ≤2-digit decimal-comma rule applies only to values
that fail the earlier patterns, e.g. with a leading minus: `"-1,23"`
gives -1.23 while `"-1,2345"` gives -12345. -/
theorem c7_amended (a b col : List Char) (ha : a ≠ []) (hb : b ≠ [])
    (hda : ∀ c ∈ a, c ∈ digitChars) (hdb : ∀ c ∈ b, c ∈ digitChars) :
    cleanNumericValue (a ++ ',' :: b) col = .num ⟨(digitsToNat (a ++ b) : Int), 0⟩ ∧
    cleanNumericValue ('-' :: (a ++ ',' :: b)) col =
      (if b.length ≤ 2 then .num ⟨-(digitsToNat (a ++ b) : Int), b.length⟩
       else .num ⟨-(digitsToNat (a ++ b) : Int), 0⟩) := by
  have hallWS1 : ∀ x ∈ a ++ ',' :: b, isWS x = false := by
    intro x hx
    rcases List.mem_append.mp hx with h1 | h2
    · exact (digit_facts x (hda x h1)).2.1
    · rcases List.mem_cons.mp h2 with rfl | h3
      · decide
      · exact (digit_facts x (hdb x h3)).2.1
  have habne : a ++ b ≠ [] := by
    intro hemp
    exact ha (List.append_eq_nil.mp hemp).1
  have hdab : ∀ c ∈ a ++ b, c ∈ digitChars := by
    intro c hc
    rcases List.mem_append.mp hc with h1 | h2
    · exact hda c h1
    · exact hdb c h2
  constructor
  · unfold cleanNumericValue
    dsimp only
    rw [jsTrim_eq_self_of_all _ hallWS1]
    rw [if_neg (by simp [List.isEmpty_iff])]
    rw [matchP1_digits_comma a b ha hda hdb]
    rw [if_pos rfl]
    rw [p1Clean_digits_comma a b hda hdb]
    rw [jsNumber_digits (a ++ b) habne hdab]
    dsimp only
    rw [if_neg (by simpa [List.isEmpty_iff] using habne)]
    rw [jsParseFloat_digits (a ++ b) habne hdab]
  · unfold cleanNumericValue
    have hallWS2 : ∀ x ∈ '-' :: (a ++ ',' :: b), isWS x = false := by
      intro x hx
      rcases List.mem_cons.mp hx with rfl | h2
      · decide
      · exact hallWS1 x h2
    dsimp only
    rw [jsTrim_eq_self_of_all _ hallWS2]
    rw [if_neg (by simp [List.isEmpty_iff])]
    rw [matchP1_minus]
    simp only [Bool.false_eq_true, if_false]
    rw [matchP1b_minus]
    simp only [Bool.false_eq_true, if_false]
    rw [matchP2_minus_comma a b ha hda]
    simp only [Bool.false_eq_true, if_false]
    rw [matchP3_minus_comma a b hda hdb]
    rw [if_pos rfl]
    rw [p3Clean_minus_comma a b ha hb hda hdb]
    by_cases hlen : b.length ≤ 2
    · rw [if_pos hlen, if_pos hlen]
      rw [jsParseFloat_neg_decimal a b ha hda hdb]
    · rw [if_neg hlen, if_neg hlen]
      rw [jsParseFloat_neg_digits (a ++ b) habne hdab]

theorem c7_witness :
    cleanNumericValue ("1".data ++ ',' :: "23".data) "total".data =
      .num ⟨(digitsToNat ("1".data ++ "23".data) : Int), 0⟩ ∧
    cleanNumericValue ('-' :: ("1".data ++ ',' :: "23".data)) "total".data =
      (if ("23".data).length ≤ 2 then
        .num ⟨-(digitsToNat ("1".data ++ "23".data) : Int), ("23".data).length⟩
       else .num ⟨-(digitsToNat ("1".data ++ "23".data) : Int), 0⟩) :=
  c7_amended "1".data "23".data "total".data (by decide) (by decide)
    (by decide) (by decide)

theorem jsGet_eq_none {α : Type} (m : List (List Char × α)) (k : List Char)
    (h : k ∉ m.map Prod.fst) : jsGet m k = none := by
  unfold jsGet
  rw [Option.map_eq_none']
  rw [List.find?_eq_none]
  intro x hx
  simp only [decide_eq_true_eq]
  intro heq
  exact h (List.mem_map.mpr ⟨x, List.mem_reverse.mp hx, heq⟩)

theorem jsGet_cons_ne {α : Type} (k0 : List Char) (v0 : α) (rest : List (List Char × α))
    (k : List Char) (h : k0 ≠ k) : jsGet ((k0, v0) :: rest) k = jsGet rest k := by
  unfold jsGet
  rw [List.reverse_cons, List.find?_append]
  have h1 : List.find? (fun p => decide (p.1 = k)) [(k0, v0)] = none := by
    simp [h]
  rw [h1, Option.or_none]

theorem jsGet_cons_self {α : Type} (k : List Char) (v0 : α) (rest : List (List Char × α))
    (h : k ∉ rest.map Prod.fst) : jsGet ((k, v0) :: rest) k = some v0 := by
  unfold jsGet
  rw [List.reverse_cons, List.find?_append]
  have h1 : List.find? (fun p => decide (p.1 = k)) rest.reverse = none := by
    rw [List.find?_eq_none]
    intro x hx
    simp only [decide_eq_true_eq]
    intro heq
    exact h (List.mem_map.mpr ⟨x, List.mem_reverse.mp hx, heq⟩)
  rw [h1, Option.none_or]
  simp

theorem jsKeys_of_nodup {α : Type} (m : List (List Char × α))
    (h : (m.map Prod.fst).Nodup) : jsKeys m = m.map Prod.fst := by
  induction m with
  | nil => rfl
  | cons p rest ih =>
    obtain ⟨k, v⟩ := p
    simp only [List.map_cons, List.nodup_cons] at h
    rw [jsKeys, ih h.2]
    congr 1
    apply List.filter_eq_self.mpr
    intro x hx
    exact decide_eq_true (fun heq => h.1 (heq ▸ hx))

theorem find?_congr_list {α : Type} (p q : α → Bool) :
    ∀ (l : List α), (∀ a ∈ l, p a = q a) → l.find? p = l.find? q := by
  intro l
  induction l with
  | nil => intro _; rfl
  | cons a l ih =>
    intro h
    by_cases hpa : p a = true
    · rw [List.find?_cons_of_pos l hpa,
        List.find?_cons_of_pos l (show q a = true by rw [← h a (by simp)]; exact hpa)]
    · rw [List.find?_cons_of_neg l hpa,
        List.find?_cons_of_neg l (show ¬q a = true by rw [← h a (by simp)]; exact hpa),
        ih (fun x hx => h x (by simp [hx]))]

theorem cleanHeadersAux_mapping (md5hex8 : List Char → List Char) :
    ∀ (hs : List (List Char)) (idx : Nat) (seen : List (List Char)),
    (cleanHeadersAux md5hex8 hs idx seen).headerMapping.map Prod.fst = hs ∧
    (cleanHeadersAux md5hex8 hs idx seen).headerMapping.map Prod.snd =
      (cleanHeadersAux md5hex8 hs idx seen).cleanedHeaders := by
  intro hs
  induction hs with
  | nil => intro idx seen; constructor <;> rfl
  | cons h hs ih =>
    intro idx seen
    obtain ⟨ih1, ih2⟩ := ih (idx + 1) (seen ++ [freshName seen (cleanColumnName md5hex8 h (some idx))])
    constructor
    · simp only [cleanHeadersAux, List.map_cons]
      rw [ih1]
    · simp only [cleanHeadersAux, List.map_cons]
      rw [ih2]

theorem copyFields_eq (headerMapping : List (List Char × List Char)) :
    ∀ (row : List (List Char × Option (List Char))),
    row.map Prod.fst = headerMapping.map Prod.fst →
    (headerMapping.map Prod.fst).Nodup →
    (headerMapping.map Prod.snd).Nodup →
    (headerMapping.map Prod.snd).map (copyFieldValue headerMapping row) =
      row.map (fun p => csvEscapeValue (some p.2)) := by
  induction headerMapping with
  | nil =>
    intro row hfst _ _
    have hr : row = [] := by
      have := hfst
      rw [List.map_nil] at this
      exact List.map_eq_nil.mp this
    subst hr
    rfl
  | cons hm m ih =>
    obtain ⟨k0, f0⟩ := hm
    intro row hfst hndk hndv
    cases row with
    | nil => simp at hfst
    | cons r0 row2 =>
      obtain ⟨k1, v0⟩ := r0
      simp only [List.map_cons, List.cons.injEq] at hfst
      obtain ⟨rfl, hrow2⟩ := hfst
      have hndk2 := hndk
      simp only [List.map_cons, List.nodup_cons] at hndk2
      obtain ⟨hk0, hndk3⟩ := hndk2
      have hndv2 := hndv
      simp only [List.map_cons, List.nodup_cons] at hndv2
      obtain ⟨hf0, hndv3⟩ := hndv2
      have hk0row : k1 ∉ row2.map Prod.fst := by
        rw [hrow2]
        exact hk0
      rw [List.map_cons, List.map_cons, List.map_cons]
      have hhead : copyFieldValue ((k1, f0) :: m) ((k1, v0) :: row2) f0 =
          csvEscapeValue (some v0) := by
        unfold copyFieldValue
        rw [jsKeys_of_nodup _ hndk, List.map_cons]
        rw [List.find?_cons_of_pos _ (by
          simp only [decide_eq_true_eq]
          rw [jsGet_cons_self k1 f0 m hk0])]
        dsimp only
        rw [jsGet_cons_self k1 v0 row2 hk0row]
      have hstep : ∀ f ∈ m.map Prod.snd,
          copyFieldValue ((k1, f0) :: m) ((k1, v0) :: row2) f = copyFieldValue m row2 f := by
        intro f hf
        unfold copyFieldValue
        rw [jsKeys_of_nodup _ hndk, jsKeys_of_nodup _ hndk3, List.map_cons]
        rw [List.find?_cons_of_neg _ (by
          simp only [decide_eq_true_eq]
          rw [jsGet_cons_self k1 f0 m hk0]
          intro heq
          exact hf0 (Option.some.inj heq ▸ hf))]
        rw [find?_congr_list (fun orig => decide (jsGet ((k1, f0) :: m) orig = some f))
          (fun orig => decide (jsGet m orig = some f)) (m.map Prod.fst)
          (fun orig ho => by
            dsimp only
            rw [jsGet_cons_ne k1 f0 m orig (fun he => hk0 (he ▸ ho))])]
        cases hor : (m.map Prod.fst).find? (fun orig => decide (jsGet m orig = some f)) with
        | none => rfl
        | some orig =>
          dsimp only
          have homem : orig ∈ m.map Prod.fst := List.mem_of_find?_eq_some hor
          rw [jsGet_cons_ne k1 v0 row2 orig (fun he => hk0 (he ▸ homem))]
      rw [hhead, List.map_congr_left hstep, ih row2 hrow2 hndk3 hndv3]

theorem parseCSVData_row_fst (csvData : List Char) :
    ∀ row ∈ (parseCSVData csvData).data,
      row.map Prod.fst = (parseCSVData csvData).headers := by
  intro row hrow
  unfold parseCSVData at hrow ⊢
  cases hcl : csvLines csvData with
  | nil =>
    rw [hcl] at hrow
    simp at hrow
  | cons hd tl =>
    rw [hcl] at hrow
    dsimp only at hrow
    rw [List.mem_filterMap] at hrow
    obtain ⟨line, hline, hsome⟩ := hrow
    by_cases hlen : (lineTokens line).length = ((lineTokens hd).map tokenValue).length
    · rw [if_pos hlen] at hsome
      obtain rfl := Option.some.inj hsome
      unfold mkRow
      rw [List.map_fst_zip]
      simp only [List.length_map]
      rw [List.length_map] at hlen
      omega
    · rw [if_neg hlen] at hsome
      simp at hsome

/-- C10: every load through `replicateTables` takes the COPY path, whose
payload never applies the value cleaner: under duplicate-free parsed
headers, each data line of the COPY payload is exactly the row's parsed
values — each non-null value the trimmed, carriage-return-stripped source
text — CSV-escaped, with no numeric or date coercion; and the payload is
independent of the `rawMode` option (destructured on line 2619 and never
read). -/
theorem c10 (md5hex8 : List Char → List Char) (rawMode : Bool) (csvData : List Char)
    (hnd : (parseCSVData csvData).headers.Nodup) :
    copyDataLines md5hex8 rawMode csvData =
      (parseCSVData csvData).data.map (fun row =>
        joinSep ',' (row.map (fun p => csvEscapeValue (some p.2)))) ∧
    copyPayload md5hex8 rawMode csvData = copyPayload md5hex8 (!rawMode) csvData := by
  constructor
  · unfold copyDataLines cleanHeaders
    dsimp only
    apply List.map_congr_left
    intro row hrow
    apply congrArg
    have hfst : row.map Prod.fst = (parseCSVData csvData).headers :=
      parseCSVData_row_fst csvData row hrow
    obtain ⟨hm1, hm2⟩ := cleanHeadersAux_mapping md5hex8 (parseCSVData csvData).headers 0 []
    have hndk : ((cleanHeadersAux md5hex8 (parseCSVData csvData).headers 0 []).headerMapping.map
        Prod.fst).Nodup := by
      rw [hm1]
      exact hnd
    have hndv : ((cleanHeadersAux md5hex8 (parseCSVData csvData).headers 0 []).headerMapping.map
        Prod.snd).Nodup := by
      rw [hm2]
      exact (cleanHeadersAux_nodup md5hex8 (parseCSVData csvData).headers 0 []).1
    have hmain := copyFields_eq
      (cleanHeadersAux md5hex8 (parseCSVData csvData).headers 0 []).headerMapping row
      (by rw [hm1]; exact hfst) hndk hndv
    rw [← hmain, hm2]
  · rfl

theorem c10_witness :
    copyDataLines dummyMd5 true "a,b\n1,x".data =
      (parseCSVData "a,b\n1,x".data).data.map (fun row =>
        joinSep ',' (row.map (fun p => csvEscapeValue (some p.2)))) ∧
    copyPayload dummyMd5 true "a,b\n1,x".data = copyPayload dummyMd5 (!true) "a,b\n1,x".data :=
  c10 dummyMd5 true "a,b\n1,x".data (by decide)

end BulkReplicator
